import Mathlib

/-!
Verification of the robin-hood hashmap engine of this repository.

Only the public header `src/hashmap.h` is present in the repository
snapshot; the implementation file is absent.  Following the specification,
the engine (bucket store, robin-hood insert, lookup with early
termination, backward-shift deletion, grow/rehash, clear, probe) is
modelled here as executable Lean functions, and the stated properties are
proved about this model.
-/

namespace HashmapModel

/-- Modelled from the spec (§3, Bucket): an occupied bucket stores a cached
64-bit digest of the element, its probe distance from the ideal slot
(`dib`), and the element payload itself.  An empty bucket is `none` in the
bucket array. -/
structure Entry (α : Type) where
  hash : Nat
  dib  : Nat
  item : α
deriving DecidableEq

/-- Modelled from the spec (§3, §4.4): the behaviour functions fixed at
construction time — the hash function (seeds folded in; returns the
64-bit digest) and the equality test that defines which elements are the
same entry. -/
structure HashCfg (α : Type) where
  hash  : α → Nat
  keyEq : α → α → Bool

/-- Modelled from the spec (§3, HashTable): capacity (`nbuckets`), the
stored default-capacity value (`capHint`, set at construction and used by
`hashmap_clear`), occupancy count, the flat bucket array, and the sticky
out-of-memory flag.  The mask is not stored: `capacity` is a power of two
and probing reduces positions `mod capacity`, which coincides with
`&&& (capacity - 1)` (proved below). -/
structure Hashmap (α : Type) where
  nbuckets : Nat
  capHint  : Nat
  count    : Nat
  buckets  : List (Option (Entry α))
  oom      : Bool
deriving DecidableEq

/-- Fuel-driven loop rounding a capacity hint up: keep doubling `acc`
until it reaches `n` (mirrors the doubling loop the spec describes for
construction). -/
def roundCapGo : Nat → Nat → Nat → Nat
  | 0, _, acc => acc
  | fuel + 1, n, acc => if n ≤ acc then acc else roundCapGo fuel n (2 * acc)

/-- Modelled from the spec (§4.1): construction rounds the requested
capacity hint up to the next power of two, minimum 16. -/
def roundCap (hint : Nat) : Nat := roundCapGo hint hint 16

/-- Modelled from the spec (§4.1, construct): a fresh table with the
rounded capacity, that many empty buckets, occupancy zero and the OOM
flag clear.  The behaviour functions live in `HashCfg` and are passed to
each operation; the element size is irrelevant to the model. -/
def hashmap_new (α : Type) (hint : Nat) : Hashmap α :=
  ⟨roundCap hint, roundCap hint, 0, List.replicate (roundCap hint) none, false⟩

/-- The occupied entries of a bucket array, in physical order. -/
def entriesL {α : Type} (bks : List (Option (Entry α))) : List (Entry α) :=
  bks.filterMap id

/-- Digest/item view of an entry (the probe distance is layout, not
content). -/
def kiOf {α : Type} (b : Entry α) : Nat × α := (b.hash, b.item)

/-- The multiset of (digest, element) pairs stored in a bucket array. -/
def entriesKI {α : Type} (bks : List (Option (Entry α))) : Multiset (Nat × α) :=
  ((entriesL bks).map kiOf : List (Nat × α))

/-- Total stored displacement of a bucket array: each backward-shift step
during deletion decreases it by one, so it bounds the shift walk. -/
def totalDib {α : Type} (bks : List (Option (Entry α))) : Nat :=
  (Multiset.map (fun b : Entry α => b.dib) ↑(entriesL bks)).sum

/-- Modelled from the spec (§4.2, Lookup): walk forward from the ideal
position with a running distance; stop with `none` at an empty slot or
when the running distance exceeds the resident's stored distance
(robin-hood early termination); on a digest-plus-equality match return
the physical position.  `fuel` bounds the walk (the capacity is always
enough, as proved below). -/
def probeFind {α : Type} (cfg : HashCfg α) (bks : List (Option (Entry α)))
    (hk : Nat) (k : α) : Nat → Nat → Nat → Option Nat
  | 0, _, _ => none
  | fuel + 1, pos, d =>
    match bks[pos]? with
    | some (some r) =>
      if hk == r.hash && cfg.keyEq k r.item then some pos
      else if r.dib < d then none
      else probeFind cfg bks hk k fuel ((pos + 1) % bks.length) (d + 1)
    | _ => none

/-- Modelled from the spec (§4.2, Lookup / §6 get): locate the key's slot
by the probe walk and return the stored element, or `none` when absent. -/
def hashmap_get {α : Type} (cfg : HashCfg α) (m : Hashmap α) (k : α) : Option α :=
  match probeFind cfg m.buckets (cfg.hash k) k m.nbuckets (cfg.hash k % m.nbuckets) 0 with
  | some q =>
    match m.buckets[q]? with
    | some (some b) => some b.item
    | _ => none
  | none => none

/-- Modelled from the spec (§4.2, Insertion): walk from the ideal position
carrying an entry whose `dib` is the running distance.  At an empty slot,
write the carried entry.  On a digest-plus-equality match, overwrite the
item in place, preserve the resident's stored distance and return the
previous item.  If the resident is "richer" (strictly smaller stored
distance than the carried distance, consistently with the §3 distance
invariant), the carried entry takes the slot with its own distance and
the displaced resident walks on from the next slot with its distance
incremented; otherwise simply walk on. -/
def place {α : Type} (cfg : HashCfg α) :
    Nat → Nat → Entry α → List (Option (Entry α)) → Option α × List (Option (Entry α))
  | 0, _, _, bks => (none, bks)
  | fuel + 1, pos, e, bks =>
    match bks[pos]? with
    | some none => (none, bks.set pos (some e))
    | some (some r) =>
      if e.hash == r.hash && cfg.keyEq e.item r.item then
        (some r.item, bks.set pos (some ⟨r.hash, r.dib, e.item⟩))
      else if r.dib < e.dib then
        place cfg fuel ((pos + 1) % bks.length) ⟨r.hash, r.dib + 1, r.item⟩ (bks.set pos (some e))
      else
        place cfg fuel ((pos + 1) % bks.length) ⟨e.hash, e.dib + 1, e.item⟩ bks
    | none => (none, bks)

/-- Reinsert a list of entries into a bucket array, in order, each via the
ordinary robin-hood placement starting from its ideal position under the
array's own mask (used by grow's rehash). -/
def rehashF {α : Type} (cfg : HashCfg α) (es : List (Entry α))
    (acc : List (Option (Entry α))) : List (Option (Entry α)) :=
  es.foldl (fun a b => (place cfg a.length (b.hash % a.length) ⟨b.hash, 0, b.item⟩ a).2) acc

/-- Modelled from the spec (§4.1, grow): allocate a fresh bucket array of
double size and reinsert every currently occupied bucket, in physical
order, via the ordinary robin-hood placement (not a raw copy); occupancy
and the OOM flag are unchanged. -/
def grow {α : Type} (cfg : HashCfg α) (m : Hashmap α) : Hashmap α :=
  ⟨m.nbuckets * 2, m.capHint, m.count,
    rehashF cfg (entriesL m.buckets) (List.replicate (m.nbuckets * 2) none),
    m.oom⟩

/-- Modelled from the spec (§4.1, §4.2 Insertion): finish a set operation
given the placement outcome.  A replacement returns the previous item and
leaves the occupancy alone.  A fresh insertion increases the occupancy,
and if it now exceeds 3/4 of the capacity a grow is attempted: if the
allocation (oracle `allocOk`) fails, the sticky OOM flag is set and the
insert stays applied to the old, now over-threshold table. -/
def setFinish {α : Type} (cfg : HashCfg α) (allocOk : Bool) (m : Hashmap α)
    (pr : Option α × List (Option (Entry α))) : Option α × Hashmap α :=
  match pr.1 with
  | some old => (some old, ⟨m.nbuckets, m.capHint, m.count, pr.2, m.oom⟩)
  | none =>
    if m.nbuckets * 3 / 4 < m.count + 1 then
      if allocOk then
        (none, grow cfg ⟨m.nbuckets, m.capHint, m.count + 1, pr.2, m.oom⟩)
      else
        (none, ⟨m.nbuckets, m.capHint, m.count + 1, pr.2, true⟩)
    else
      (none, ⟨m.nbuckets, m.capHint, m.count + 1, pr.2, m.oom⟩)

/-- Modelled from the spec (§4.1, §4.2 Insertion, §6 set): place the
element starting from its ideal position with running distance 0, then
finish (replace, or count the insertion and possibly grow). -/
def hashmap_set {α : Type} (cfg : HashCfg α) (allocOk : Bool) (m : Hashmap α) (e : α) :
    Option α × Hashmap α :=
  setFinish cfg allocOk m
    (place cfg m.nbuckets (cfg.hash e % m.nbuckets) ⟨cfg.hash e, 0, e⟩ m.buckets)

/-- Modelled from the spec (§4.2, Deletion): after the found slot is
vacated, repeatedly shift the successor backward while it is occupied
with a positive stored distance, decrementing that distance, and finally
mark the last vacated slot empty (backward-shift compaction, no
tombstone).  `fuel` bounds the loop (always sufficient, as proved
below). -/
def shiftBack {α : Type} : Nat → Nat → List (Option (Entry α)) → List (Option (Entry α))
  | 0, pos, bks => bks.set pos none
  | fuel + 1, pos, bks =>
    match bks[(pos + 1) % bks.length]? with
    | some (some r) =>
      if 0 < r.dib then
        shiftBack fuel ((pos + 1) % bks.length)
          (bks.set pos (some ⟨r.hash, r.dib - 1, r.item⟩))
      else bks.set pos none
    | _ => bks.set pos none

/-- Modelled from the spec (§4.2, Deletion): copy the found element out,
compact by backward shifting from the vacated slot and decrement the
count. -/
def delFinish {α : Type} (m : Hashmap α) (q : Nat) : Option α × Hashmap α :=
  match m.buckets[q]? with
  | some (some b) =>
    (some b.item,
      ⟨m.nbuckets, m.capHint, m.count - 1,
        shiftBack (m.nbuckets * m.nbuckets + 1) q m.buckets, m.oom⟩)
  | _ => (none, m)

/-- Modelled from the spec (§4.2, Deletion / §6 delete): locate the exact
slot via the lookup procedure; if absent report not-found, otherwise
remove the element with backward-shift compaction. -/
def hashmap_delete {α : Type} (cfg : HashCfg α) (m : Hashmap α) (k : α) :
    Option α × Hashmap α :=
  match probeFind cfg m.buckets (cfg.hash k) k m.nbuckets (cfg.hash k % m.nbuckets) 0 with
  | none => (none, m)
  | some q => delFinish m q

/-- Modelled from the spec (§4.2, Positional probe / §6 probe): reduce the
64-bit position modulo the capacity and return the element occupying that
physical slot, if any. -/
def hashmap_probe {α : Type} (m : Hashmap α) (position : Nat) : Option α :=
  match m.buckets[position % m.nbuckets]? with
  | some (some b) => some b.item
  | _ => none

/-- Modelled from the spec (§6 count): the current occupancy. -/
def hashmap_count {α : Type} (m : Hashmap α) : Nat := m.count

/-- Modelled from the spec (§6 is-out-of-memory): the sticky OOM flag. -/
def hashmap_oom {α : Type} (m : Hashmap α) : Bool := m.oom

/-- Modelled from the spec (§4.1 clear, and the header's contract for
`hashmap_clear`): invoke the destructor on every occupied element (the
returned list records those invocations, in physical order), mark every
bucket empty and reset the occupancy.  When `update_cap` is true the
stored capacity value is updated to match the current number of allocated
buckets — an optimization that performs no allocation.  Otherwise, if the
bucket array no longer matches the stored capacity, it is reallocated to
that size (allocation oracle `allocOk`; on failure the sticky OOM flag is
set and the current array is kept). -/
def hashmap_clear {α : Type} (allocOk : Bool) (m : Hashmap α) (update_cap : Bool) :
    Hashmap α × List α :=
  let destroyed := (entriesL m.buckets).map (·.item)
  if update_cap then
    (⟨m.nbuckets, m.nbuckets, 0, List.replicate m.nbuckets none, m.oom⟩, destroyed)
  else if m.nbuckets ≠ m.capHint then
    if allocOk then
      (⟨m.capHint, m.capHint, 0, List.replicate m.capHint none, m.oom⟩, destroyed)
    else
      (⟨m.nbuckets, m.capHint, 0, List.replicate m.nbuckets none, true⟩, destroyed)
  else
    (⟨m.nbuckets, m.capHint, 0, List.replicate m.nbuckets none, m.oom⟩, destroyed)

/-- State-passing view of `hashmap_get`, making its effect on the table
explicit (the spec describes lookup as a pure read). -/
def hashmap_getS {α : Type} (cfg : HashCfg α) (m : Hashmap α) (k : α) :
    Option α × Hashmap α := (hashmap_get cfg m k, m)

/-- State-passing view of `hashmap_probe`. -/
def hashmap_probeS {α : Type} (m : Hashmap α) (position : Nat) :
    Option α × Hashmap α := (hashmap_probe m position, m)

/-- State-passing view of `hashmap_count`. -/
def hashmap_countS {α : Type} (m : Hashmap α) : Nat × Hashmap α := (hashmap_count m, m)

/-- State-passing view of `hashmap_oom`. -/
def hashmap_oomS {α : Type} (m : Hashmap α) : Bool × Hashmap α := (hashmap_oom m, m)

/-- Lawfulness the spec requires of the caller-supplied behaviour
functions (§3, §4.4): the equality test is an equivalence on elements and
equal elements hash equal. -/
structure LawfulCfg {α : Type} (cfg : HashCfg α) : Prop where
  hash_congr : ∀ a b, cfg.keyEq a b = true → cfg.hash a = cfg.hash b
  eq_refl : ∀ a, cfg.keyEq a a = true
  eq_symm : ∀ a b, cfg.keyEq a b = true → cfg.keyEq b a = true
  eq_trans : ∀ a b c, cfg.keyEq a b = true → cfg.keyEq b c = true → cfg.keyEq a c = true

/-- Distance correctness (§3 bucket invariant): every occupied bucket's
stored probe distance is below the capacity and places the bucket exactly
`dib` slots (with wraparound) after the digest's ideal position. -/
def bOK {α : Type} (bks : List (Option (Entry α))) : Prop :=
  ∀ p b, bks[p]? = some (some b) →
    b.dib < bks.length ∧ p = (b.hash + b.dib) % bks.length

/-- No-gap / monotone-run property: a displaced occupied bucket is
preceded by an occupied bucket whose stored distance is at most one
smaller. -/
def inv4 {α : Type} (bks : List (Option (Entry α))) : Prop :=
  ∀ p c, p < bks.length → bks[(p + 1) % bks.length]? = some (some c) → 0 < c.dib →
    ∃ b, bks[p]? = some (some b) ∧ c.dib ≤ b.dib + 1

/-- Key uniqueness: two distinct occupied buckets never hold equal
elements. -/
def inv5 {α : Type} (cfg : HashCfg α) (bks : List (Option (Entry α))) : Prop :=
  ∀ (p q : Nat) (b c : Entry α), bks[p]? = some (some b) → bks[q]? = some (some c) →
    p ≠ q → cfg.keyEq b.item c.item = false

/-- Digest coherence: each occupied bucket caches the digest of its own
element. -/
def inv6 {α : Type} (cfg : HashCfg α) (bks : List (Option (Entry α))) : Prop :=
  ∀ (p : Nat) (b : Entry α), bks[p]? = some (some b) → b.hash = cfg.hash b.item

/-- The robin-hood bucket-array invariant (§3). -/
structure WFb {α : Type} (cfg : HashCfg α) (bks : List (Option (Entry α))) : Prop where
  ok : bOK bks
  i4 : inv4 bks
  i5 : inv5 cfg bks
  i6 : inv6 cfg bks

/-- Table well-formedness (§3 HashTable invariant): capacity bookkeeping
plus the bucket-array invariant. -/
structure WFm {α : Type} (cfg : HashCfg α) (m : Hashmap α) : Prop where
  len_eq : m.buckets.length = m.nbuckets
  pow2 : ∃ k, m.nbuckets = 2 ^ k
  cap16 : 16 ≤ m.nbuckets
  hintPow2 : ∃ k, m.capHint = 2 ^ k
  hint16 : 16 ≤ m.capHint
  count_eq : m.count = (entriesL m.buckets).length
  wfb : WFb cfg m.buckets

/-- Executable key-presence test: does some occupied bucket match key `k`
by the digest-plus-equality test? -/
def hasKeyB {α : Type} (cfg : HashCfg α) (m : Hashmap α) (k : α) : Bool :=
  (entriesL m.buckets).any fun b => cfg.hash k == b.hash && cfg.keyEq k b.item

/-- Table states reachable through the public interface: construction
followed by any sequence of set, delete and clear operations (with any
allocation outcomes).  A set step carries the side condition that the
table is not completely full: on a full table an insert of a fresh key
never terminates in the modelled engine (reachable only after repeated
allocation failures), so no post-state exists for it. -/
inductive Reach {α : Type} (cfg : HashCfg α) : Hashmap α → Prop where
  | new (hint : Nat) : Reach cfg (hashmap_new α hint)
  | set {m : Hashmap α} (allocOk : Bool) (e : α) : Reach cfg m →
      m.count < m.nbuckets → Reach cfg (hashmap_set cfg allocOk m e).2
  | del {m : Hashmap α} (k : α) : Reach cfg m →
      Reach cfg (hashmap_delete cfg m k).2
  | clear {m : Hashmap α} (allocOk update_cap : Bool) : Reach cfg m →
      Reach cfg (hashmap_clear allocOk m update_cap).1

/-- Concrete instantiation used for witnesses: natural-number elements
that are their own keys, hashed by the identity. -/
def cfg0 : HashCfg Nat := ⟨fun a => a, fun a b => a == b⟩

/-- Fold a list of keys into a table by repeated `hashmap_set`. -/
def insertAll (ks : List Nat) (m : Hashmap Nat) : Hashmap Nat :=
  ks.foldl (fun acc k => (hashmap_set cfg0 true acc k).2) m

/-- A concrete table whose bucket array (32 buckets) no longer matches its
stored capacity value (16), as arises after a grow. -/
def mGrown : Hashmap Nat := ⟨32, 16, 0, List.replicate 32 none, false⟩

/-- Executable check that every step of an `insertAll` fold starts from a
table with at least one free bucket (the side condition of a set step). -/
def insertAllOK : List Nat → Hashmap Nat → Bool
  | [], _ => true
  | k :: ks, m =>
      decide (m.count < m.nbuckets) && insertAllOK ks (hashmap_set cfg0 true m k).2

/-! ### Modular-arithmetic toolkit for circular probing -/

theorem mod_step (i t n : Nat) : ((i + t) % n + 1) % n = (i + (t + 1)) % n := by
  rw [Nat.mod_add_mod, Nat.add_assoc]

theorem mod_succ_pred {n : Nat} {q : Nat} (hq : q < n) :
    ((q + n - 1) % n + 1) % n = q := by
  rw [Nat.mod_add_mod]
  have h1 : q + n - 1 + 1 = q + n := by omega
  rw [h1, Nat.add_mod_right]
  exact Nat.mod_eq_of_lt hq

theorem mod_inj {n t t' : Nat} (ht : t < n) (ht' : t' < n) (i : Nat)
    (h : (i + t) % n = (i + t') % n) : t = t' := by
  have h2 : t ≡ t' [MOD n] := Nat.ModEq.add_left_cancel' i h
  have h3 : t % n = t' % n := h2
  rwa [Nat.mod_eq_of_lt ht, Nat.mod_eq_of_lt ht'] at h3

theorem mod_ne_self {n p : Nat} (hn : 1 < n) (hp : p < n) : (p + 1) % n ≠ p := by
  intro h
  rcases Nat.lt_or_ge (p + 1) n with h1 | h1
  · rw [Nat.mod_eq_of_lt h1] at h
    omega
  · have hp1 : p + 1 = n := by omega
    rw [hp1, Nat.mod_self] at h
    omega

/-! ### Bucket-array toolkit -/

theorem length_pos_of_getElem? {γ : Type} {l : List γ} {p : Nat} {a : γ}
    (h : l[p]? = some a) : 0 < l.length := by
  rcases List.getElem?_eq_some.mp h with ⟨hlt, -⟩
  omega

theorem lt_length_of_getElem? {γ : Type} {l : List γ} {p : Nat} {a : γ}
    (h : l[p]? = some a) : p < l.length :=
  (List.getElem?_eq_some.mp h).1

theorem entriesL_cons_none {α : Type} {l : List (Option (Entry α))} :
    entriesL (none :: l) = entriesL l := rfl

theorem entriesL_cons_some {α : Type} {b : Entry α} {l : List (Option (Entry α))} :
    entriesL (some b :: l) = b :: entriesL l := rfl

theorem mem_entriesL {α : Type} {b : Entry α} {bks : List (Option (Entry α))} :
    b ∈ entriesL bks ↔ ∃ p : Nat, bks[p]? = some (some b) := by
  unfold entriesL
  rw [List.mem_filterMap]
  constructor
  · rintro ⟨o, ho, rfl⟩
    exact List.mem_iff_getElem?.mp ho
  · rintro ⟨p, hp⟩
    exact ⟨some b, List.mem_iff_getElem?.mpr ⟨p, hp⟩, rfl⟩

theorem entriesL_length_full {α : Type} {bks : List (Option (Entry α))}
    (h : ∀ j, j < bks.length → ∃ b, bks[j]? = some (some b)) :
    (entriesL bks).length = bks.length := by
  induction bks with
  | nil => rfl
  | cons hd tl ih =>
    obtain ⟨b, hb⟩ := h 0 (by simp)
    simp only [List.getElem?_cons_zero, Option.some.injEq] at hb
    subst hb
    simp only [entriesL_cons_some, List.length_cons, Nat.add_left_inj]
    apply ih
    intro j hj
    have := h (j + 1) (by simpa using Nat.succ_lt_succ hj)
    simpa using this

theorem exists_empty_slot {α : Type} {bks : List (Option (Entry α))}
    (h : (entriesL bks).length < bks.length) :
    ∃ j, j < bks.length ∧ bks[j]? = some none := by
  by_contra hc
  push_neg at hc
  have hall : ∀ j, j < bks.length → ∃ b, bks[j]? = some (some b) := by
    intro j hj
    have hsome := List.getElem?_eq_getElem hj
    cases ho : bks[j] with
    | none => exact absurd (by rw [hsome, ho]) (hc j hj)
    | some b => exact ⟨b, by rw [hsome, ho]⟩
  exact absurd (entriesL_length_full hall) (by omega)

theorem exists_empty_ahead {α : Type} {bks : List (Option (Entry α))}
    (h : (entriesL bks).length < bks.length) (pos : Nat) :
    ∃ T, T < bks.length ∧ bks[(pos + T) % bks.length]? = some none := by
  obtain ⟨j, hj, hjE⟩ := exists_empty_slot h
  set n := bks.length with hn
  have hlen : 0 < n := by omega
  have hple : pos % n < n := Nat.mod_lt _ hlen
  have hmle : pos % n ≤ pos := Nat.mod_le _ _
  refine ⟨(j + n - pos % n) % n, Nat.mod_lt _ hlen, ?_⟩
  have h1 : (pos + (j + n - pos % n) % n) % n = (pos + (j + n - pos % n)) % n :=
    Nat.add_mod_mod ..
  have h2 : (pos + (j + n - pos % n)) % n = (pos % n + (j + n - pos % n)) % n :=
    (Nat.mod_add_mod ..).symm
  have h3 : pos % n + (j + n - pos % n) = j + n := by omega
  rw [h1, h2, h3, Nat.add_mod_right, Nat.mod_eq_of_lt hj]
  exact hjE

/-! ### The probe-path lemma: every slot between an occupied bucket's
ideal position and its physical position is occupied, with stored
distance at least the offset from the ideal position. -/

theorem path_aux {α : Type} {bks : List (Option (Entry α))} (hok : bOK bks)
    (h4 : inv4 bks) {p : Nat} {b : Entry α} (hb : bks[p]? = some (some b)) :
    ∀ k t, t + k = b.dib →
      ∃ c, bks[(b.hash + t) % bks.length]? = some (some c) ∧ t ≤ c.dib := by
  intro k
  induction k with
  | zero =>
    intro t ht
    rw [Nat.add_zero] at ht
    subst ht
    obtain ⟨-, hpos⟩ := hok p b hb
    exact ⟨b, by rw [← hpos]; exact hb, le_refl _⟩
  | succ k ih =>
    intro t ht
    obtain ⟨c', hc', hdc'⟩ := ih (t + 1) (by omega)
    have hlen : 0 < bks.length := length_pos_of_getElem? hb
    have hplt : (b.hash + t) % bks.length < bks.length := Nat.mod_lt _ hlen
    obtain ⟨c, hc, hle⟩ := h4 ((b.hash + t) % bks.length) c' hplt
      (by rw [mod_step]; exact hc') (by omega)
    exact ⟨c, hc, by omega⟩

theorem path_reachable {α : Type} {bks : List (Option (Entry α))} (hok : bOK bks)
    (h4 : inv4 bks) {p : Nat} {b : Entry α} (hb : bks[p]? = some (some b))
    {t : Nat} (ht : t ≤ b.dib) :
    ∃ c, bks[(b.hash + t) % bks.length]? = some (some c) ∧ t ≤ c.dib :=
  path_aux hok h4 hb (b.dib - t) t (by omega)

/-! ### Multiset bookkeeping for single-slot writes -/

theorem entriesM_set {α : Type} {bks : List (Option (Entry α))} {p : Nat}
    {op : Option (Entry α)} (hp : bks[p]? = some op) (o : Option (Entry α)) :
    (↑(entriesL (bks.set p o)) : Multiset (Entry α)) + ↑op.toList
      = ↑(entriesL bks) + ↑o.toList := by
  induction bks generalizing p with
  | nil => simp at hp
  | cons hd tl ih =>
    cases p with
    | zero =>
      simp only [List.getElem?_cons_zero, Option.some.injEq] at hp
      subst hp
      cases o with
      | none =>
        cases hd with
        | none => rfl
        | some b =>
          simp only [List.set_cons_zero, entriesL_cons_none, entriesL_cons_some,
            Option.toList_some, Option.toList_none, ← Multiset.cons_coe]
          simp [Multiset.singleton_add]
          rw [add_comm]
          simp [Multiset.singleton_add]
      | some a =>
        cases hd with
        | none =>
          simp only [List.set_cons_zero, entriesL_cons_none, entriesL_cons_some,
            Option.toList_some, Option.toList_none, ← Multiset.cons_coe]
          simp [Multiset.singleton_add]
          rw [add_comm]
          simp [Multiset.singleton_add]
        | some b =>
          simp only [List.set_cons_zero, entriesL_cons_some, Option.toList_some,
            ← Multiset.cons_coe]
          rw [Multiset.cons_add, Multiset.cons_add]
          simp only [Multiset.coe_nil, Multiset.cons_zero]
          rw [add_comm (↑(entriesL tl)) ({b} : Multiset (Entry α)),
            add_comm (↑(entriesL tl)) ({a} : Multiset (Entry α))]
          simp only [Multiset.singleton_add]
          exact Multiset.cons_swap a b _
    | succ p' =>
      simp only [List.getElem?_cons_succ] at hp
      rw [List.set_cons_succ]
      cases hd with
      | none =>
        simp only [entriesL_cons_none]
        exact ih hp
      | some b =>
        simp only [entriesL_cons_some, ← Multiset.cons_coe]
        rw [Multiset.cons_add, Multiset.cons_add, ih hp]

theorem entriesKI_set {α : Type} {bks : List (Option (Entry α))} {p : Nat}
    {op : Option (Entry α)} (hp : bks[p]? = some op) (o : Option (Entry α)) :
    entriesKI (bks.set p o) + ↑(op.toList.map kiOf)
      = entriesKI bks + ↑(o.toList.map kiOf) := by
  have h := congrArg (Multiset.map kiOf) (entriesM_set hp o)
  simpa only [Multiset.map_add, Multiset.map_coe, entriesKI] using h

theorem entriesL_length_set {α : Type} {bks : List (Option (Entry α))} {p : Nat}
    {op : Option (Entry α)} (hp : bks[p]? = some op) (o : Option (Entry α)) :
    (entriesL (bks.set p o)).length + op.toList.length
      = (entriesL bks).length + o.toList.length := by
  have h := congrArg Multiset.card (entriesM_set hp o)
  simpa only [Multiset.card_add, Multiset.coe_card] using h

/-! ### Lookup-walk lemmas -/

theorem probeFind_sound {α : Type} {cfg : HashCfg α} {bks : List (Option (Entry α))}
    {hk : Nat} {k : α} :
    ∀ {fuel pos d q : Nat}, probeFind cfg bks hk k fuel pos d = some q →
      ∃ b : Entry α, bks[q]? = some (some b) ∧
        (hk == b.hash && cfg.keyEq k b.item) = true := by
  intro fuel
  induction fuel with
  | zero => intro pos d q h; simp [probeFind] at h
  | succ fuel ih =>
    intro pos d q h
    rw [probeFind] at h
    cases hbp : bks[pos]? with
    | none => rw [hbp] at h; simp at h
    | some o =>
      rw [hbp] at h
      cases o with
      | none => simp at h
      | some r =>
        simp only at h
        by_cases hm : (hk == r.hash && cfg.keyEq k r.item) = true
        · rw [if_pos hm] at h
          have hq : pos = q := by simpa using h
          subst hq
          exact ⟨r, hbp, hm⟩
        · rw [if_neg hm] at h
          by_cases hd : r.dib < d
          · rw [if_pos hd] at h; simp at h
          · rw [if_neg hd] at h
            exact ih h

theorem probeFind_complete {α : Type} {cfg : HashCfg α} (hL : LawfulCfg cfg)
    {bks : List (Option (Entry α))} (hwf : WFb cfg bks)
    {p : Nat} {b : Entry α} (hb : bks[p]? = some (some b))
    {hk : Nat} {k : α} (hmatch : (hk == b.hash && cfg.keyEq k b.item) = true) :
    ∀ fuel t, t ≤ b.dib → b.dib - t < fuel →
      probeFind cfg bks hk k fuel ((b.hash + t) % bks.length) t = some p := by
  have hkb : hk = b.hash := by
    have := (Bool.and_eq_true _ _).mp hmatch
    exact eq_of_beq this.1
  have hkeq : cfg.keyEq k b.item = true := ((Bool.and_eq_true _ _).mp hmatch).2
  intro fuel
  induction fuel with
  | zero => intro t ht hf; omega
  | succ fuel ih =>
    intro t ht hf
    obtain ⟨c, hc, htc⟩ := path_reachable hwf.ok hwf.i4 hb ht
    rw [probeFind, hc]
    simp only
    by_cases hm : (hk == c.hash && cfg.keyEq k c.item) = true
    · rw [if_pos hm]
      have hpp : (b.hash + t) % bks.length = p := by
        by_contra hne
        have hkc : cfg.keyEq k c.item = true := ((Bool.and_eq_true _ _).mp hm).2
        have hbc : cfg.keyEq b.item c.item = true :=
          hL.eq_trans _ _ _ (hL.eq_symm _ _ hkeq) hkc
        have := hwf.i5 p _ b c hb hc (fun h => hne h.symm)
        rw [hbc] at this
        exact Bool.true_eq_false.mp this
      rw [hpp]
    · rw [if_neg hm]
      have hne : (b.hash + t) % bks.length ≠ p := by
        intro he
        rw [he, hb] at hc
        have : b = c := by injection hc with h1; injection h1
        rw [← this] at hm
        exact hm hmatch
      have htlt : t < b.dib := by
        rcases Nat.lt_or_ge t b.dib with h1 | h1
        · exact h1
        · have hteq : t = b.dib := by omega
          have hpeq : (b.hash + t) % bks.length = p := by
            rw [hteq]
            exact (hwf.ok p b hb).2.symm
          exact absurd hpeq hne
      have hnd : ¬ c.dib < t := by omega
      rw [if_neg hnd, mod_step]
      exact ih (t + 1) (by omega) (by omega)

theorem hashmap_get_finds {α : Type} {cfg : HashCfg α} (hL : LawfulCfg cfg)
    {m : Hashmap α} (hm : WFm cfg m) {p : Nat} {b : Entry α} {k : α}
    (hb : m.buckets[p]? = some (some b))
    (hmatch : (cfg.hash k == b.hash && cfg.keyEq k b.item) = true) :
    hashmap_get cfg m k = some b.item := by
  have hkb : cfg.hash k = b.hash := eq_of_beq ((Bool.and_eq_true _ _).mp hmatch).1
  have hlen : m.buckets.length = m.nbuckets := hm.len_eq
  have hdib : b.dib < m.buckets.length := (hm.wfb.ok p b hb).1
  have hfind : probeFind cfg m.buckets (cfg.hash k) k m.nbuckets
      (cfg.hash k % m.nbuckets) 0 = some p := by
    have h0 : cfg.hash k % m.nbuckets = (b.hash + 0) % m.buckets.length := by
      rw [Nat.add_zero, ← hkb, hlen]
    rw [h0]
    exact probeFind_complete hL hm.wfb hb hmatch m.nbuckets 0 (Nat.zero_le _) (by omega)
  unfold hashmap_get
  rw [hfind]
  show (match m.buckets[p]? with
    | some (some b) => some b.item
    | _ => none) = some b.item
  rw [hb]

theorem hashmap_get_sound {α : Type} {cfg : HashCfg α} {m : Hashmap α} {k : α} {x : α}
    (h : hashmap_get cfg m k = some x) :
    ∃ (p : Nat) (b : Entry α), m.buckets[p]? = some (some b) ∧
      (cfg.hash k == b.hash && cfg.keyEq k b.item) = true ∧ x = b.item := by
  unfold hashmap_get at h
  cases hfind : probeFind cfg m.buckets (cfg.hash k) k m.nbuckets
      (cfg.hash k % m.nbuckets) 0 with
  | none => rw [hfind] at h; simp at h
  | some q =>
    rw [hfind] at h
    obtain ⟨b, hbq, hmatch⟩ := probeFind_sound hfind
    have h2 : (match m.buckets[q]? with
        | some (some b) => some b.item
        | _ => none) = some x := h
    rw [hbq] at h2
    have hx : x = b.item := by
      simp only [Option.some.injEq] at h2
      exact h2.symm
    exact ⟨q, b, hbq, hmatch, hx⟩

theorem hashmap_get_none_iff {α : Type} {cfg : HashCfg α} (hL : LawfulCfg cfg)
    {m : Hashmap α} (hm : WFm cfg m) (k : α) :
    hashmap_get cfg m k = none ↔
      ∀ (p : Nat) (b : Entry α), m.buckets[p]? = some (some b) →
        (cfg.hash k == b.hash && cfg.keyEq k b.item) = false := by
  constructor
  · intro hnone p b hb
    cases hx : (cfg.hash k == b.hash && cfg.keyEq k b.item) with
    | false => rfl
    | true =>
      have := hashmap_get_finds hL hm hb hx
      rw [hnone] at this
      exact absurd this (by simp)
  · intro hall
    cases hfind : probeFind cfg m.buckets (cfg.hash k) k m.nbuckets
        (cfg.hash k % m.nbuckets) 0 with
    | none => unfold hashmap_get; rw [hfind]
    | some q =>
      obtain ⟨b, hbq, hmatch⟩ := probeFind_sound hfind
      have := hall q b hbq
      rw [hmatch] at this
      exact absurd this (by simp)

/-! ### More circular-position helpers -/

theorem succ_inj_mod {n p q : Nat} (hp : p < n) (hq : q < n)
    (h : (p + 1) % n = (q + 1) % n) : p = q := by
  rw [Nat.add_comm p 1, Nat.add_comm q 1] at h
  exact mod_inj hp hq 1 h

theorem pred_of_succ {n p q : Nat} (hp : p < n) (h : (p + 1) % n = q) :
    p = (q + n - 1) % n := by
  have hn : 0 < n := by omega
  have hq : q < n := by rw [← h]; exact Nat.mod_lt _ hn
  have h2 : ((q + n - 1) % n + 1) % n = (p + 1) % n := by rw [mod_succ_pred hq, h]
  exact (succ_inj_mod (Nat.mod_lt _ hn) hp h2).symm

theorem succ_pred_self {n pos : Nat} (hpos : pos < n) :
    ((pos + 1) % n + n - 1) % n = pos :=
  (pred_of_succ hpos rfl).symm

theorem pred_ne_self {n pos : Nat} (hn : 1 < n) (hpos : pos < n) :
    (pos + n - 1) % n ≠ pos := by
  intro h
  have h2 : ((pos + n - 1) % n + 1) % n = pos := mod_succ_pred hpos
  rw [h] at h2
  exact mod_ne_self hn hpos h2

/-! ### Consequences of the single-write multiset lemma -/

theorem entriesKI_set_fill {α : Type} {bks : List (Option (Entry α))} {p : Nat}
    (hp : bks[p]? = some none) (e : Entry α) :
    entriesKI (bks.set p (some e)) = kiOf e ::ₘ entriesKI bks := by
  have h := entriesKI_set hp (some e)
  simp only [Option.toList_none, Option.toList_some, List.map_nil, List.map_cons,
    Multiset.coe_nil, add_zero] at h
  rw [h, ← Multiset.cons_coe, Multiset.coe_nil, Multiset.cons_zero, add_comm,
    Multiset.singleton_add]

theorem entriesKI_set_replace {α : Type} {bks : List (Option (Entry α))} {p : Nat}
    {r : Entry α} (hp : bks[p]? = some (some r)) (e : Entry α) :
    entriesKI (bks.set p (some e)) + {kiOf r} = entriesKI bks + {kiOf e} := by
  have h := entriesKI_set hp (some e)
  simpa only [Option.toList_some, List.map_cons, List.map_nil, ← Multiset.cons_coe,
    Multiset.coe_nil, Multiset.cons_zero] using h

theorem entriesKI_set_remove {α : Type} {bks : List (Option (Entry α))} {p : Nat}
    {r : Entry α} (hp : bks[p]? = some (some r)) :
    entriesKI (bks.set p none) + {kiOf r} = entriesKI bks := by
  have h := entriesKI_set hp none
  simpa only [Option.toList_some, Option.toList_none, List.map_cons, List.map_nil,
    ← Multiset.cons_coe, Multiset.coe_nil, Multiset.cons_zero, add_zero] using h

theorem entriesL_length_fill {α : Type} {bks : List (Option (Entry α))} {p : Nat}
    (hp : bks[p]? = some none) (e : Entry α) :
    (entriesL (bks.set p (some e))).length = (entriesL bks).length + 1 := by
  have h := entriesL_length_set hp (some e)
  simpa using h

theorem entriesL_length_replace {α : Type} {bks : List (Option (Entry α))} {p : Nat}
    {r : Entry α} (hp : bks[p]? = some (some r)) (e : Entry α) :
    (entriesL (bks.set p (some e))).length = (entriesL bks).length := by
  have h := entriesL_length_set hp (some e)
  simpa using h

theorem entriesL_length_remove {α : Type} {bks : List (Option (Entry α))} {p : Nat}
    {r : Entry α} (hp : bks[p]? = some (some r)) :
    (entriesL (bks.set p none)).length + 1 = (entriesL bks).length := by
  have h := entriesL_length_set hp none
  simpa using h

/-! ### Invariant preservation for a single in-bounds write -/

theorem place_step {α : Type} (cfg : HashCfg α) (fuel pos : Nat) (e : Entry α)
    (bks : List (Option (Entry α))) :
    place cfg (fuel + 1) pos e bks =
      match bks[pos]? with
      | some none => (none, bks.set pos (some e))
      | some (some r) =>
        if e.hash == r.hash && cfg.keyEq e.item r.item then
          (some r.item, bks.set pos (some ⟨r.hash, r.dib, e.item⟩))
        else if r.dib < e.dib then
          place cfg fuel ((pos + 1) % bks.length) ⟨r.hash, r.dib + 1, r.item⟩
            (bks.set pos (some e))
        else
          place cfg fuel ((pos + 1) % bks.length) ⟨e.hash, e.dib + 1, e.item⟩ bks
      | none => (none, bks) := by
  rw [place]

theorem place_step_empty {α : Type} (cfg : HashCfg α) (fuel pos : Nat) (e : Entry α)
    {bks : List (Option (Entry α))} (ho : bks[pos]? = some none) :
    place cfg (fuel + 1) pos e bks = (none, bks.set pos (some e)) := by
  rw [place_step, ho]

theorem place_step_occ {α : Type} (cfg : HashCfg α) (fuel pos : Nat) (e : Entry α)
    {r : Entry α} {bks : List (Option (Entry α))} (ho : bks[pos]? = some (some r)) :
    place cfg (fuel + 1) pos e bks =
      if e.hash == r.hash && cfg.keyEq e.item r.item then
        (some r.item, bks.set pos (some ⟨r.hash, r.dib, e.item⟩))
      else if r.dib < e.dib then
        place cfg fuel ((pos + 1) % bks.length) ⟨r.hash, r.dib + 1, r.item⟩
          (bks.set pos (some e))
      else
        place cfg fuel ((pos + 1) % bks.length) ⟨e.hash, e.dib + 1, e.item⟩ bks := by
  rw [place_step, ho]

theorem bOK_write {α : Type} {bks : List (Option (Entry α))} {pos : Nat} {e : Entry α}
    (hok : bOK bks) (hd : e.dib < bks.length)
    (hp : pos = (e.hash + e.dib) % bks.length) :
    bOK (bks.set pos (some e)) := by
  intro p b hpb
  rw [List.length_set]
  by_cases hpp : p = pos
  · subst hpp
    have hplt : p < bks.length := by rw [hp]; exact Nat.mod_lt _ (by omega)
    rw [List.getElem?_set_self hplt] at hpb
    have hb : b = e := by
      simp only [Option.some.injEq] at hpb
      exact hpb.symm
    subst hb
    exact ⟨hd, hp⟩
  · rw [List.getElem?_set_ne (fun h => hpp h.symm)] at hpb
    exact hok p b hpb

theorem inv5_write {α : Type} {cfg : HashCfg α} {bks : List (Option (Entry α))}
    {pos : Nat} {e : Entry α} (h5 : inv5 cfg bks) (hposlt : pos < bks.length)
    (hm5 : ∀ (p : Nat) (b : Entry α), bks[p]? = some (some b) →
      cfg.keyEq e.item b.item = false ∧ cfg.keyEq b.item e.item = false) :
    inv5 cfg (bks.set pos (some e)) := by
  intro p q b c hpb hqc hne
  by_cases hpp : p = pos
  · subst hpp
    rw [List.getElem?_set_self hposlt] at hpb
    have hb : b = e := by
      simp only [Option.some.injEq] at hpb
      exact hpb.symm
    subst hb
    rw [List.getElem?_set_ne hne] at hqc
    exact (hm5 q c hqc).1
  · rw [List.getElem?_set_ne (fun h => hpp h.symm)] at hpb
    by_cases hqq : q = pos
    · subst hqq
      rw [List.getElem?_set_self hposlt] at hqc
      have hc : c = e := by
        simp only [Option.some.injEq] at hqc
        exact hqc.symm
      subst hc
      exact (hm5 p b hpb).2
    · rw [List.getElem?_set_ne (fun h => hqq h.symm)] at hqc
      exact h5 p q b c hpb hqc hne

theorem inv6_write {α : Type} {cfg : HashCfg α} {bks : List (Option (Entry α))}
    {pos : Nat} {e : Entry α} (h6 : inv6 cfg bks) (hposlt : pos < bks.length)
    (He : e.hash = cfg.hash e.item) :
    inv6 cfg (bks.set pos (some e)) := by
  intro p b hpb
  by_cases hpp : p = pos
  · subst hpp
    rw [List.getElem?_set_self hposlt] at hpb
    have hb : b = e := by
      simp only [Option.some.injEq] at hpb
      exact hpb.symm
    subst hb
    exact He
  · rw [List.getElem?_set_ne (fun h => hpp h.symm)] at hpb
    exact h6 p b hpb

/-! ### The central insertion lemma: placing a fresh key succeeds,
preserves the robin-hood invariants and adds exactly the new entry. -/

theorem place_insert {α : Type} (cfg : HashCfg α) :
    ∀ (fuel : Nat), ∀ (T pos : Nat) (e : Entry α) (bks : List (Option (Entry α))),
    T < fuel →
    e.dib + T < bks.length →
    bks[(pos + T) % bks.length]? = some none →
    pos = (e.hash + e.dib) % bks.length →
    bOK bks → inv4 bks → inv5 cfg bks → inv6 cfg bks →
    (0 < e.dib → ∃ pb : Entry α,
      bks[(pos + bks.length - 1) % bks.length]? = some (some pb) ∧ e.dib ≤ pb.dib + 1) →
    (∀ (p : Nat) (b : Entry α), bks[p]? = some (some b) →
      cfg.keyEq e.item b.item = false ∧ cfg.keyEq b.item e.item = false) →
    e.hash = cfg.hash e.item →
    ∃ bks2, place cfg fuel pos e bks = (none, bks2) ∧
      bks2.length = bks.length ∧
      bOK bks2 ∧ inv4 bks2 ∧ inv5 cfg bks2 ∧ inv6 cfg bks2 ∧
      entriesKI bks2 = kiOf e ::ₘ entriesKI bks := by
  intro fuel
  induction fuel with
  | zero => intro T pos e bks hTf; omega
  | succ fuel ih =>
    intro T pos e bks hTf hTd hE hpos hok h4 h5 h6 hbound hm5 He
    have hlen : 0 < bks.length := by omega
    have hposlt : pos < bks.length := by rw [hpos]; exact Nat.mod_lt _ hlen
    obtain ⟨o, ho⟩ : ∃ o, bks[pos]? = some o := ⟨bks[pos], List.getElem?_eq_getElem hposlt⟩
    cases o with
    | none =>
      refine ⟨bks.set pos (some e), by rw [place_step, ho], List.length_set .., ?_, ?_, ?_, ?_, ?_⟩
      · exact bOK_write hok (by omega) hpos
      · intro p c hplen hc hcd
        rw [List.length_set] at hplen hc
        by_cases hsp : (p + 1) % bks.length = pos
        · rw [hsp, List.getElem?_set_self hposlt] at hc
          have hce : c = e := by
            simp only [Option.some.injEq] at hc
            exact hc.symm
          subst hce
          obtain ⟨pb, hpb, hpbd⟩ := hbound hcd
          have hlen2 : 1 < bks.length := by omega
          have hpred : p = (pos + bks.length - 1) % bks.length := pred_of_succ hplen hsp
          refine ⟨pb, ?_, hpbd⟩
          rw [hpred, List.getElem?_set_ne (fun h => pred_ne_self hlen2 hposlt h.symm)]
          exact hpb
        · rw [List.getElem?_set_ne (fun h => hsp h.symm)] at hc
          obtain ⟨b, hbp, hbd⟩ := h4 p c hplen hc hcd
          by_cases hpp : p = pos
          · subst hpp
            rw [ho] at hbp
            simp at hbp
          · exact ⟨b, by rw [List.getElem?_set_ne (fun h => hpp h.symm)]; exact hbp, hbd⟩
      · exact inv5_write h5 hposlt hm5
      · exact inv6_write h6 hposlt He
      · exact entriesKI_set_fill ho e
    | some r =>
      cases T with
      | zero =>
        rw [Nat.add_zero, Nat.mod_eq_of_lt hposlt, ho] at hE
        simp at hE
      | succ T' =>
        have hEne : (pos + (T' + 1)) % bks.length ≠ pos := by
          intro h
          have h2 : (pos + (T' + 1)) % bks.length = (pos + 0) % bks.length := by
            rw [h, Nat.add_zero, Nat.mod_eq_of_lt hposlt]
          have := mod_inj (by omega) (by omega) pos h2
          omega
        have hkeyF : cfg.keyEq e.item r.item = false := (hm5 pos r ho).1
        have hnc : ¬ ((e.hash == r.hash && cfg.keyEq e.item r.item) = true) := by
          rw [hkeyF, Bool.and_false]
          simp
        obtain ⟨hrd, hrpos⟩ := hok pos r ho
        have hres : place cfg (fuel + 1) pos e bks =
            if e.hash == r.hash && cfg.keyEq e.item r.item then
              (some r.item, bks.set pos (some ⟨r.hash, r.dib, e.item⟩))
            else if r.dib < e.dib then
              place cfg fuel ((pos + 1) % bks.length) ⟨r.hash, r.dib + 1, r.item⟩
                (bks.set pos (some e))
            else
              place cfg fuel ((pos + 1) % bks.length) ⟨e.hash, e.dib + 1, e.item⟩ bks := by
          rw [place_step, ho]
        by_cases hswap : r.dib < e.dib
        · have hih := ih T' ((pos + 1) % bks.length) ⟨r.hash, r.dib + 1, r.item⟩
            (bks.set pos (some e))
            (by omega)
            (by rw [List.length_set]
                show r.dib + 1 + T' < bks.length
                omega)
            (by rw [List.length_set, Nat.mod_add_mod]
                have h1 : pos + 1 + T' = pos + (T' + 1) := by omega
                rw [h1, List.getElem?_set_ne (fun h => hEne h.symm)]
                exact hE)
            (by rw [List.length_set]
                show (pos + 1) % bks.length = (r.hash + (r.dib + 1)) % bks.length
                rw [hrpos, mod_step])
            (bOK_write hok (by omega) hpos)
            (by intro p c hplen hc hcd
                rw [List.length_set] at hplen hc
                by_cases hsp : (p + 1) % bks.length = pos
                · rw [hsp, List.getElem?_set_self hposlt] at hc
                  have hce : c = e := by
                    simp only [Option.some.injEq] at hc
                    exact hc.symm
                  subst hce
                  obtain ⟨pb, hpb, hpbd⟩ := hbound hcd
                  have hlen2 : 1 < bks.length := by omega
                  have hpred : p = (pos + bks.length - 1) % bks.length := pred_of_succ hplen hsp
                  refine ⟨pb, ?_, hpbd⟩
                  rw [hpred, List.getElem?_set_ne (fun h => pred_ne_self hlen2 hposlt h.symm)]
                  exact hpb
                · rw [List.getElem?_set_ne (fun h => hsp h.symm)] at hc
                  obtain ⟨b, hbp, hbd⟩ := h4 p c hplen hc hcd
                  by_cases hpp : p = pos
                  · subst hpp
                    rw [ho] at hbp
                    have hbr : b = r := by
                      simp only [Option.some.injEq] at hbp
                      exact hbp.symm
                    subst hbr
                    exact ⟨e, by rw [List.getElem?_set_self hposlt], by omega⟩
                  · exact ⟨b, by rw [List.getElem?_set_ne (fun h => hpp h.symm)]; exact hbp, hbd⟩)
            (inv5_write h5 hposlt hm5)
            (inv6_write h6 hposlt He)
            (by intro hrd1
                rw [List.length_set, succ_pred_self hposlt]
                refine ⟨e, by rw [List.getElem?_set_self hposlt], ?_⟩
                show r.dib + 1 ≤ e.dib + 1
                omega)
            (by intro p b hpb
                by_cases hpp : p = pos
                · subst hpp
                  rw [List.getElem?_set_self hposlt] at hpb
                  have hbe : b = e := by
                    simp only [Option.some.injEq] at hpb
                    exact hpb.symm
                  subst hbe
                  exact ⟨(hm5 p r ho).2, (hm5 p r ho).1⟩
                · rw [List.getElem?_set_ne (fun h => hpp h.symm)] at hpb
                  exact ⟨h5 pos p r b ho hpb (fun h => hpp h.symm), h5 p pos b r hpb ho hpp⟩)
            (h6 pos r ho)
          obtain ⟨bks3, heq3, hlen3, hok3, h43, h53, h63, hKI3⟩ := hih
          refine ⟨bks3, ?_, ?_, hok3, h43, h53, h63, ?_⟩
          · rw [hres, if_neg hnc, if_pos hswap]
            exact heq3
          · rw [hlen3, List.length_set]
          · rw [hKI3]
            have h1 : kiOf (⟨r.hash, r.dib + 1, r.item⟩ : Entry α) = kiOf r := rfl
            rw [h1, ← Multiset.singleton_add, ← Multiset.singleton_add,
              add_comm ({kiOf r} : Multiset (Nat × α)) _,
              add_comm ({kiOf e} : Multiset (Nat × α)) _]
            exact entriesKI_set_replace ho e
        · have hih := ih T' ((pos + 1) % bks.length) ⟨e.hash, e.dib + 1, e.item⟩ bks
            (by omega)
            (by show e.dib + 1 + T' < bks.length; omega)
            (by rw [Nat.mod_add_mod]
                have h1 : pos + 1 + T' = pos + (T' + 1) := by omega
                rw [h1]
                exact hE)
            (by show (pos + 1) % bks.length = (e.hash + (e.dib + 1)) % bks.length
                rw [hpos, mod_step])
            hok h4 h5 h6
            (by intro hd1
                rw [succ_pred_self hposlt]
                refine ⟨r, ho, ?_⟩
                show e.dib + 1 ≤ r.dib + 1
                omega)
            (by intro p b hpb; exact hm5 p b hpb)
            He
          obtain ⟨bks3, heq3, hlen3, hok3, h43, h53, h63, hKI3⟩ := hih
          refine ⟨bks3, ?_, hlen3, hok3, h43, h53, h63, ?_⟩
          · rw [hres, if_neg hnc, if_neg hswap]
            exact heq3
          · exact hKI3

/-! ### The replacement lemma: placing an already-present key overwrites
that key's slot in place, preserving its stored distance. -/

theorem place_replace {α : Type} {cfg : HashCfg α} (hL : LawfulCfg cfg) :
    ∀ (fuel pos : Nat) (e : Entry α) (bks : List (Option (Entry α)))
      (q : Nat) (b : Entry α),
    bks[q]? = some (some b) →
    (e.hash == b.hash && cfg.keyEq e.item b.item) = true →
    e.dib ≤ b.dib →
    b.dib - e.dib < fuel →
    pos = (e.hash + e.dib) % bks.length →
    bOK bks → inv4 bks → inv5 cfg bks →
    place cfg fuel pos e bks = (some b.item, bks.set q (some ⟨b.hash, b.dib, e.item⟩)) := by
  intro fuel
  induction fuel with
  | zero => intro pos e bks q b hb hm hd hf; omega
  | succ fuel ih =>
    intro pos e bks q b hb hm hd hf hpos hok h4 h5
    have hlen : 0 < bks.length := length_pos_of_getElem? hb
    have hposlt : pos < bks.length := by rw [hpos]; exact Nat.mod_lt _ hlen
    have heb : e.hash = b.hash := eq_of_beq ((Bool.and_eq_true _ _).mp hm).1
    have hkeq : cfg.keyEq e.item b.item = true := ((Bool.and_eq_true _ _).mp hm).2
    have hbq : q = (b.hash + b.dib) % bks.length := (hok q b hb).2
    have hposb : pos = (b.hash + e.dib) % bks.length := by rw [hpos, heb]
    obtain ⟨c, hc, hcd⟩ := path_reachable hok h4 hb hd
    rw [← hposb] at hc
    by_cases hqq : pos = q
    · have hcpos : bks[pos]? = some (some b) := by rw [hqq]; exact hb
      rw [place_step_occ cfg fuel pos e hcpos, if_pos hm, hqq]
    · have hmc : ¬ ((e.hash == c.hash && cfg.keyEq e.item c.item) = true) := by
        intro hmt
        have hkc : cfg.keyEq e.item c.item = true := ((Bool.and_eq_true _ _).mp hmt).2
        have hcb : cfg.keyEq c.item b.item = true :=
          hL.eq_trans _ _ _ (hL.eq_symm _ _ hkc) hkeq
        have hfalse := h5 pos q c b hc hb hqq
        rw [hcb] at hfalse
        exact absurd hfalse (by simp)
      have hlt : e.dib < b.dib := by
        rcases Nat.lt_or_ge e.dib b.dib with h1 | h1
        · exact h1
        · have h2 : e.dib = b.dib := by omega
          exact absurd (by rw [hposb, h2, ← hbq]) hqq
      have hnoswap : ¬ (c.dib < e.dib) := by omega
      rw [place_step_occ cfg fuel pos e hc, if_neg hmc, if_neg hnoswap]
      exact ih ((pos + 1) % bks.length) ⟨e.hash, e.dib + 1, e.item⟩ bks q b hb hm
        (by show e.dib + 1 ≤ b.dib; omega)
        (by show b.dib - (e.dib + 1) < fuel; omega)
        (by show (pos + 1) % bks.length = (e.hash + (e.dib + 1)) % bks.length
            rw [hpos, mod_step])
        hok h4 h5

/-! ### Invariant preservation for an in-place overwrite -/

theorem inv4_write_same_dib {α : Type} {bks : List (Option (Entry α))} {q : Nat}
    {b b' : Entry α} (h4 : inv4 bks) (hb : bks[q]? = some (some b))
    (hdib : b'.dib = b.dib) : inv4 (bks.set q (some b')) := by
  have hqlt : q < bks.length := lt_length_of_getElem? hb
  intro p c hplen hc hcd
  rw [List.length_set] at hplen hc
  by_cases hsp : (p + 1) % bks.length = q
  · rw [hsp, List.getElem?_set_self hqlt] at hc
    have hcb : c = b' := by
      simp only [Option.some.injEq] at hc
      exact hc.symm
    subst hcb
    obtain ⟨pb, hpb, hpbd⟩ := h4 p b hplen (by rw [hsp]; exact hb) (by omega)
    by_cases hpq : p = q
    · subst hpq
      exact ⟨c, by rw [List.getElem?_set_self hqlt], by omega⟩
    · exact ⟨pb, by rw [List.getElem?_set_ne (fun h => hpq h.symm)]; exact hpb, by omega⟩
  · rw [List.getElem?_set_ne (fun h => hsp h.symm)] at hc
    obtain ⟨pb, hpb, hpbd⟩ := h4 p c hplen hc hcd
    by_cases hpq : p = q
    · subst hpq
      rw [hb] at hpb
      have hpbb : pb = b := by
        simp only [Option.some.injEq] at hpb
        exact hpb.symm
      subst hpbb
      exact ⟨b', by rw [List.getElem?_set_self hqlt], by omega⟩
    · exact ⟨pb, by rw [List.getElem?_set_ne (fun h => hpq h.symm)]; exact hpb, hpbd⟩

theorem inv5_write_equal {α : Type} {cfg : HashCfg α} (hL : LawfulCfg cfg)
    {bks : List (Option (Entry α))} {q : Nat} {b b' : Entry α}
    (h5 : inv5 cfg bks) (hb : bks[q]? = some (some b))
    (hbeq : cfg.keyEq b'.item b.item = true) : inv5 cfg (bks.set q (some b')) := by
  have hqlt : q < bks.length := lt_length_of_getElem? hb
  intro p p' x y hx hy hne
  by_cases hpq : p = q
  · subst hpq
    rw [List.getElem?_set_self hqlt] at hx
    have hxb : x = b' := by
      simp only [Option.some.injEq] at hx
      exact hx.symm
    subst hxb
    rw [List.getElem?_set_ne hne] at hy
    cases hxy : cfg.keyEq x.item y.item with
    | false => rfl
    | true =>
      have hby : cfg.keyEq b.item y.item = true :=
        hL.eq_trans _ _ _ (hL.eq_symm _ _ hbeq) hxy
      have := h5 p p' b y hb hy hne
      rw [hby] at this
      exact absurd this (by simp)
  · rw [List.getElem?_set_ne (fun h => hpq h.symm)] at hx
    by_cases hp'q : p' = q
    · subst hp'q
      rw [List.getElem?_set_self hqlt] at hy
      have hyb : y = b' := by
        simp only [Option.some.injEq] at hy
        exact hy.symm
      subst hyb
      cases hxy : cfg.keyEq x.item y.item with
      | false => rfl
      | true =>
        have hxb : cfg.keyEq x.item b.item = true := hL.eq_trans _ _ _ hxy hbeq
        have := h5 p p' x b hx hb hne
        rw [hxb] at this
        exact absurd this (by simp)
    · rw [List.getElem?_set_ne (fun h => hp'q h.symm)] at hy
      exact h5 p p' x y hx hy hne

/-! ### Rehash: reinserting pairwise-distinct entries into a table -/

theorem entriesKI_card {α : Type} (bks : List (Option (Entry α))) :
    Multiset.card (entriesKI bks) = (entriesL bks).length := by
  simp [entriesKI]

theorem entriesL_replicate {α : Type} (n : Nat) :
    entriesL (List.replicate n (none : Option (Entry α))) = [] := by
  induction n with
  | zero => rfl
  | succ n ih =>
    rw [List.replicate_succ, entriesL_cons_none]
    exact ih

theorem entriesKI_replicate {α : Type} (n : Nat) :
    entriesKI (List.replicate n (none : Option (Entry α))) = 0 := by
  simp [entriesKI, entriesL_replicate]

theorem replicate_no_entry {α : Type} {n p : Nat} {b : Entry α}
    (h : (List.replicate n (none : Option (Entry α)))[p]? = some (some b)) : False := by
  rw [List.getElem?_replicate] at h
  split at h <;> simp at h

theorem WFb_replicate {α : Type} (cfg : HashCfg α) (n : Nat) :
    WFb cfg (List.replicate n (none : Option (Entry α))) := by
  refine ⟨?_, ?_, ?_, ?_⟩
  · intro p b h
    exact (replicate_no_entry h).elim
  · intro p c hp h hd
    exact (replicate_no_entry h).elim
  · intro p q b c hb hc hne
    exact (replicate_no_entry hb).elim
  · intro p b h
    exact (replicate_no_entry h).elim

theorem inv5_tail {α : Type} {cfg : HashCfg α} {hd : Option (Entry α)}
    {tl : List (Option (Entry α))} (h5 : inv5 cfg (hd :: tl)) : inv5 cfg tl := by
  intro p q b c hb hc hne
  exact h5 (p + 1) (q + 1) b c (by rw [List.getElem?_cons_succ]; exact hb)
    (by rw [List.getElem?_cons_succ]; exact hc) (by omega)

theorem pairwise_of_inv5 {α : Type} {cfg : HashCfg α} :
    ∀ {bks : List (Option (Entry α))}, inv5 cfg bks →
      List.Pairwise (fun x y : Entry α =>
        cfg.keyEq x.item y.item = false ∧ cfg.keyEq y.item x.item = false)
        (entriesL bks) := by
  intro bks
  induction bks with
  | nil => intro h; exact List.Pairwise.nil
  | cons hd tl ih =>
    intro h5
    cases hd with
    | none =>
      rw [entriesL_cons_none]
      exact ih (inv5_tail h5)
    | some b =>
      rw [entriesL_cons_some]
      refine List.Pairwise.cons ?_ (ih (inv5_tail h5))
      intro c hc
      obtain ⟨p, hp⟩ := mem_entriesL.mp hc
      constructor
      · exact h5 0 (p + 1) b c (by rw [List.getElem?_cons_zero])
          (by rw [List.getElem?_cons_succ]; exact hp) (by omega)
      · exact h5 (p + 1) 0 c b (by rw [List.getElem?_cons_succ]; exact hp)
          (by rw [List.getElem?_cons_zero]) (by omega)

theorem kiOf_mem_of_getElem? {α : Type} {bks : List (Option (Entry α))} {p : Nat}
    {c : Entry α} (h : bks[p]? = some (some c)) : kiOf c ∈ entriesKI bks := by
  have hmem : c ∈ entriesL bks := mem_entriesL.mpr ⟨p, h⟩
  simp only [entriesKI, Multiset.mem_coe, List.mem_map]
  exact ⟨c, hmem, rfl⟩

theorem exists_entry_of_KI_mem {α : Type} {bks : List (Option (Entry α))}
    {x : Nat × α} (h : x ∈ entriesKI bks) :
    ∃ (p : Nat) (c : Entry α), bks[p]? = some (some c) ∧ kiOf c = x := by
  simp only [entriesKI, Multiset.mem_coe, List.mem_map] at h
  obtain ⟨c, hc, hx⟩ := h
  obtain ⟨p, hp⟩ := mem_entriesL.mp hc
  exact ⟨p, c, hp, hx⟩

theorem rehash_fold {α : Type} {cfg : HashCfg α} :
    ∀ (es : List (Entry α)) (acc : List (Option (Entry α))),
    0 < acc.length →
    bOK acc → inv4 acc → inv5 cfg acc → inv6 cfg acc →
    (entriesL acc).length + es.length ≤ acc.length →
    (∀ b ∈ es, b.hash = cfg.hash b.item) →
    (∀ b ∈ es, ∀ x ∈ entriesKI acc,
      cfg.keyEq b.item x.2 = false ∧ cfg.keyEq x.2 b.item = false) →
    List.Pairwise (fun x y : Entry α =>
      cfg.keyEq x.item y.item = false ∧ cfg.keyEq y.item x.item = false) es →
    (rehashF cfg es acc).length = acc.length ∧ bOK (rehashF cfg es acc) ∧
      inv4 (rehashF cfg es acc) ∧ inv5 cfg (rehashF cfg es acc) ∧
      inv6 cfg (rehashF cfg es acc) ∧
      entriesKI (rehashF cfg es acc) = entriesKI acc + ↑(es.map kiOf) := by
  intro es
  induction es with
  | nil =>
    intro acc hlen hok h4 h5 h6 hcount hhash hdist hpw
    exact ⟨rfl, hok, h4, h5, h6, by simp [rehashF]⟩
  | cons b es' ih =>
    intro acc hlen hok h4 h5 h6 hcount hhash hdist hpw
    have hroom : (entriesL acc).length < acc.length := by
      simp only [List.length_cons] at hcount
      omega
    obtain ⟨T, hT, hTE⟩ := exists_empty_ahead hroom (b.hash % acc.length)
    have hm5' : ∀ (p : Nat) (c : Entry α), acc[p]? = some (some c) →
        cfg.keyEq b.item c.item = false ∧ cfg.keyEq c.item b.item = false := by
      intro p c hc
      exact hdist b (List.mem_cons_self ..) (kiOf c) (kiOf_mem_of_getElem? hc)
    obtain ⟨bks2, heq, hlen2, hok2, h42, h52, h62, hKI2⟩ :=
      place_insert cfg acc.length T (b.hash % acc.length) ⟨b.hash, 0, b.item⟩ acc
        hT (by show 0 + T < acc.length; omega) hTE
        (by show b.hash % acc.length = (b.hash + 0) % acc.length; rw [Nat.add_zero])
        hok h4 h5 h6
        (fun h => absurd h (Nat.lt_irrefl 0))
        hm5'
        (hhash b (List.mem_cons_self ..))
    have hstep : rehashF cfg (b :: es') acc = rehashF cfg es' bks2 := by
      show rehashF cfg es'
        ((place cfg acc.length (b.hash % acc.length) ⟨b.hash, 0, b.item⟩ acc).2)
        = rehashF cfg es' bks2
      rw [heq]
    have hcount2 : (entriesL bks2).length = (entriesL acc).length + 1 := by
      have hc := congrArg Multiset.card hKI2
      simpa only [entriesKI_card, Multiset.card_cons] using hc
    have hih := ih bks2 (by omega)
      hok2 h42 h52 h62
      (by rw [hlen2, hcount2]
          simp only [List.length_cons] at hcount
          omega)
      (by intro b' hb'
          exact hhash b' (List.mem_cons_of_mem _ hb'))
      (by intro b' hb' x hx
          rw [hKI2] at hx
          rcases Multiset.mem_cons.mp hx with heqx | hmemx
          · subst heqx
            have hR := (List.pairwise_cons.mp hpw).1 b' hb'
            exact ⟨hR.2, hR.1⟩
          · exact hdist b' (List.mem_cons_of_mem _ hb') x hmemx)
      (List.pairwise_cons.mp hpw).2
    obtain ⟨hlenF, hokF, h4F, h5F, h6F, hKIF⟩ := hih
    refine ⟨?_, by rw [hstep]; exact hokF, by rw [hstep]; exact h4F,
      by rw [hstep]; exact h5F, by rw [hstep]; exact h6F, ?_⟩
    · rw [hstep, hlenF, hlen2]
    · rw [hstep, hKIF, hKI2, List.map_cons, ← Multiset.cons_coe]
      have hcomm : entriesKI acc + (kiOf b ::ₘ ↑(List.map kiOf es'))
          = kiOf b ::ₘ (entriesKI acc + ↑(List.map kiOf es')) := by
        rw [add_comm, Multiset.cons_add, add_comm]
      rw [hcomm, Multiset.cons_add]
      rfl

/-! ### The grow operation: same contents, doubled capacity -/

theorem grow_spec {α : Type} (cfg : HashCfg α) (m : Hashmap α)
    (hlen_eq : m.buckets.length = m.nbuckets) (hcap : 0 < m.nbuckets)
    (hwfb : WFb cfg m.buckets) :
    (grow cfg m).nbuckets = m.nbuckets * 2 ∧
    (grow cfg m).capHint = m.capHint ∧
    (grow cfg m).count = m.count ∧
    (grow cfg m).oom = m.oom ∧
    (grow cfg m).buckets.length = m.nbuckets * 2 ∧
    WFb cfg (grow cfg m).buckets ∧
    entriesKI (grow cfg m).buckets = entriesKI m.buckets := by
  have hbase := WFb_replicate cfg (m.nbuckets * 2)
  have hfold := rehash_fold (entriesL m.buckets) (List.replicate (m.nbuckets * 2) none)
    (by rw [List.length_replicate]; omega)
    hbase.ok hbase.i4 hbase.i5 hbase.i6
    (by rw [List.length_replicate, entriesL_replicate]
        simp only [List.length_nil, Nat.zero_add]
        have h1 : (entriesL m.buckets).length ≤ m.buckets.length :=
          List.length_filterMap_le _ _
        omega)
    (by intro b hb
        obtain ⟨p, hp⟩ := mem_entriesL.mp hb
        exact hwfb.i6 p b hp)
    (by intro b hb x hx
        rw [entriesKI_replicate] at hx
        exact absurd hx (Multiset.not_mem_zero x))
    (pairwise_of_inv5 hwfb.i5)
  obtain ⟨hlenF, hokF, h4F, h5F, h6F, hKIF⟩ := hfold
  refine ⟨rfl, rfl, rfl, rfl, ?_, ⟨hokF, h4F, h5F, h6F⟩, ?_⟩
  · show (rehashF cfg (entriesL m.buckets) (List.replicate (m.nbuckets * 2) none)).length
      = m.nbuckets * 2
    rw [hlenF, List.length_replicate]
  · show entriesKI (rehashF cfg (entriesL m.buckets) (List.replicate (m.nbuckets * 2) none))
      = entriesKI m.buckets
    rw [hKIF, entriesKI_replicate, zero_add]
    rfl

/-! ### Unfolding lemmas for setFinish -/

theorem setFinish_replace {α : Type} (cfg : HashCfg α) (allocOk : Bool) (m : Hashmap α)
    (x : α) (bks : List (Option (Entry α))) :
    setFinish cfg allocOk m (some x, bks)
      = (some x, ⟨m.nbuckets, m.capHint, m.count, bks, m.oom⟩) := rfl

theorem setFinish_insert {α : Type} (cfg : HashCfg α) (allocOk : Bool) (m : Hashmap α)
    (bks : List (Option (Entry α))) :
    setFinish cfg allocOk m (none, bks)
      = if m.nbuckets * 3 / 4 < m.count + 1 then
          if allocOk then
            (none, grow cfg ⟨m.nbuckets, m.capHint, m.count + 1, bks, m.oom⟩)
          else
            (none, ⟨m.nbuckets, m.capHint, m.count + 1, bks, true⟩)
        else
          (none, ⟨m.nbuckets, m.capHint, m.count + 1, bks, m.oom⟩) := rfl

theorem presence_of_KI {α : Type} {bks : List (Option (Entry α))} {he : Nat} {e : α}
    (h : (he, e) ∈ entriesKI bks) :
    ∃ (q : Nat) (b : Entry α), bks[q]? = some (some b) ∧ b.item = e ∧ b.hash = he := by
  obtain ⟨q, b, hb, hki⟩ := exists_entry_of_KI_mem h
  have h2 : b.hash = he ∧ b.item = e := by
    have h3 := hki
    simp only [kiOf, Prod.mk.injEq] at h3
    exact h3
  exact ⟨q, b, hb, h2.2, h2.1⟩

/-! ### The full specification of hashmap_set -/

theorem hashmap_set_spec {α : Type} {cfg : HashCfg α} (hL : LawfulCfg cfg)
    {m : Hashmap α} (hm : WFm cfg m) (hroom : m.count < m.nbuckets)
    (allocOk : Bool) (e : α) :
    WFm cfg (hashmap_set cfg allocOk m e).2 ∧
    (hashmap_set cfg allocOk m e).2.capHint = m.capHint ∧
    (∃ (q : Nat) (b : Entry α),
      (hashmap_set cfg allocOk m e).2.buckets[q]? = some (some b) ∧
      b.item = e ∧ b.hash = cfg.hash e) ∧
    ((hashmap_set cfg allocOk m e).1 = none →
      (hashmap_set cfg allocOk m e).2.count = m.count + 1 ∧
      entriesKI (hashmap_set cfg allocOk m e).2.buckets
        = (cfg.hash e, e) ::ₘ entriesKI m.buckets ∧
      ((m.nbuckets * 3 / 4 < m.count + 1 ∧ allocOk = true) →
        (hashmap_set cfg allocOk m e).2.nbuckets = m.nbuckets * 2 ∧
        (hashmap_set cfg allocOk m e).2.oom = m.oom) ∧
      ((m.nbuckets * 3 / 4 < m.count + 1 ∧ allocOk = false) →
        (hashmap_set cfg allocOk m e).2.nbuckets = m.nbuckets ∧
        (hashmap_set cfg allocOk m e).2.oom = true) ∧
      (¬ (m.nbuckets * 3 / 4 < m.count + 1) →
        (hashmap_set cfg allocOk m e).2.nbuckets = m.nbuckets ∧
        (hashmap_set cfg allocOk m e).2.oom = m.oom)) ∧
    (∀ x, (hashmap_set cfg allocOk m e).1 = some x →
      (hashmap_set cfg allocOk m e).2.count = m.count ∧
      (hashmap_set cfg allocOk m e).2.nbuckets = m.nbuckets ∧
      (hashmap_set cfg allocOk m e).2.oom = m.oom ∧
      ∃ (q : Nat) (b : Entry α), m.buckets[q]? = some (some b) ∧ b.item = x ∧
        (cfg.hash e == b.hash && cfg.keyEq e b.item) = true ∧
        (hashmap_set cfg allocOk m e).2.buckets
          = m.buckets.set q (some ⟨b.hash, b.dib, e⟩)) := by
  have hlen_eq := hm.len_eq
  have hcap0 : 0 < m.nbuckets := by omega
  by_cases hp : ∃ (q : Nat) (b : Entry α), m.buckets[q]? = some (some b) ∧
      (cfg.hash e == b.hash && cfg.keyEq e b.item) = true
  · obtain ⟨q, b, hb, hmb⟩ := hp
    have hdibq := hm.wfb.ok q b hb
    have hplace := place_replace hL m.nbuckets (cfg.hash e % m.nbuckets)
      ⟨cfg.hash e, 0, e⟩ m.buckets q b hb hmb (Nat.zero_le _)
      (by show b.dib - 0 < m.nbuckets
          have h1 := hdibq.1
          omega)
      (by show cfg.hash e % m.nbuckets = (cfg.hash e + 0) % m.buckets.length
          rw [Nat.add_zero, hlen_eq])
      hm.wfb.ok hm.wfb.i4 hm.wfb.i5
    have hset : hashmap_set cfg allocOk m e
        = (some b.item, ⟨m.nbuckets, m.capHint, m.count,
            m.buckets.set q (some ⟨b.hash, b.dib, e⟩), m.oom⟩) := by
      unfold hashmap_set
      rw [hplace, setFinish_replace]
    have hhashbe : b.hash = cfg.hash e := by
      have h1 := hm.wfb.i6 q b hb
      have h2 : cfg.hash e = cfg.hash b.item :=
        hL.hash_congr _ _ ((Bool.and_eq_true _ _).mp hmb).2
      omega
    refine ⟨?_, ?_, ?_, ?_, ?_⟩
    · rw [hset]
      refine ⟨?_, hm.pow2, hm.cap16, hm.hintPow2, hm.hint16, ?_, ?_, ?_, ?_, ?_⟩
      · show (m.buckets.set q (some ⟨b.hash, b.dib, e⟩)).length = m.nbuckets
        rw [List.length_set]
        exact hlen_eq
      · show m.count = (entriesL (m.buckets.set q (some ⟨b.hash, b.dib, e⟩))).length
        rw [entriesL_length_replace hb]
        exact hm.count_eq
      · exact bOK_write hm.wfb.ok hdibq.1 hdibq.2
      · exact inv4_write_same_dib hm.wfb.i4 hb rfl
      · exact inv5_write_equal hL hm.wfb.i5 hb ((Bool.and_eq_true _ _).mp hmb).2
      · exact inv6_write hm.wfb.i6 (lt_length_of_getElem? hb) hhashbe
    · rw [hset]
    · rw [hset]
      refine ⟨q, ⟨b.hash, b.dib, e⟩, ?_, rfl, hhashbe⟩
      show (m.buckets.set q (some ⟨b.hash, b.dib, e⟩))[q]? = _
      rw [List.getElem?_set_self (lt_length_of_getElem? hb)]
    · intro hnone
      rw [hset] at hnone
      simp at hnone
    · intro x hx
      rw [hset] at hx
      have hx2 : some b.item = some x := hx
      have hxb : x = b.item := by
        simp only [Option.some.injEq] at hx2
        exact hx2.symm
      exact ⟨by rw [hset], by rw [hset], by rw [hset], q, b, hb, hxb.symm, hmb,
        by rw [hset]⟩
  · have hm5 : ∀ (p : Nat) (c : Entry α), m.buckets[p]? = some (some c) →
        cfg.keyEq e c.item = false ∧ cfg.keyEq c.item e = false := by
      intro p c hc
      have hforward : cfg.keyEq e c.item = false := by
        cases hx : cfg.keyEq e c.item with
        | false => rfl
        | true =>
          have h1 : cfg.hash e = cfg.hash c.item := hL.hash_congr _ _ hx
          have h2 : c.hash = cfg.hash c.item := hm.wfb.i6 p c hc
          have h3 : cfg.hash e = c.hash := by omega
          refine absurd ⟨p, c, hc, ?_⟩ hp
          rw [h3, hx, Bool.and_true]
          simp
      refine ⟨hforward, ?_⟩
      cases hx : cfg.keyEq c.item e with
      | false => rfl
      | true =>
        have h1 := hL.eq_symm _ _ hx
        rw [hforward] at h1
        exact absurd h1 (by simp)
    have hroom' : (entriesL m.buckets).length < m.buckets.length := by
      rw [hlen_eq, ← hm.count_eq]
      exact hroom
    obtain ⟨T, hT, hTE⟩ := exists_empty_ahead hroom' (cfg.hash e % m.nbuckets)
    obtain ⟨bks2, hplace, hlen2, hok2, h42, h52, h62, hKI2⟩ :=
      place_insert cfg m.nbuckets T (cfg.hash e % m.nbuckets) ⟨cfg.hash e, 0, e⟩ m.buckets
        (by have h1 := hT
            rw [hlen_eq] at h1
            omega)
        (by show 0 + T < m.buckets.length; omega)
        hTE
        (by show cfg.hash e % m.nbuckets = (cfg.hash e + 0) % m.buckets.length
            rw [Nat.add_zero, hlen_eq])
        hm.wfb.ok hm.wfb.i4 hm.wfb.i5 hm.wfb.i6
        (fun h => absurd h (Nat.lt_irrefl 0))
        (fun p c hc => hm5 p c hc)
        rfl
    have hset2 : hashmap_set cfg allocOk m e = setFinish cfg allocOk m (none, bks2) := by
      unfold hashmap_set
      rw [hplace]
    have hmemKI : (cfg.hash e, e) ∈ entriesKI bks2 := by
      rw [hKI2]
      exact Multiset.mem_cons_self _ _
    have hcnt2 : (entriesL bks2).length = m.count + 1 := by
      have hc := congrArg Multiset.card hKI2
      rw [entriesKI_card, Multiset.card_cons, entriesKI_card, ← hm.count_eq] at hc
      exact hc
    by_cases htrig : m.nbuckets * 3 / 4 < m.count + 1
    · cases allocOk with
      | true =>
        have hgspec := grow_spec cfg
          (⟨m.nbuckets, m.capHint, m.count + 1, bks2, m.oom⟩ : Hashmap α)
          (by show bks2.length = m.nbuckets
              rw [hlen2, hlen_eq])
          hcap0 ⟨hok2, h42, h52, h62⟩
        obtain ⟨hgn, hgh, hgc, hgo, hgl, hgwfb, hgKI⟩ := hgspec
        have hset3 : hashmap_set cfg true m e
            = (none, grow cfg ⟨m.nbuckets, m.capHint, m.count + 1, bks2, m.oom⟩) := by
          rw [hset2, setFinish_insert, if_pos htrig, if_pos rfl]
        have hKIg : entriesKI (grow cfg
            (⟨m.nbuckets, m.capHint, m.count + 1, bks2, m.oom⟩ : Hashmap α)).buckets
            = (cfg.hash e, e) ::ₘ entriesKI m.buckets := by
          rw [hgKI]
          exact hKI2
        have hcntg : (entriesL (grow cfg
            (⟨m.nbuckets, m.capHint, m.count + 1, bks2, m.oom⟩ : Hashmap α)).buckets).length
            = m.count + 1 := by
          have hc := congrArg Multiset.card hgKI
          rw [entriesKI_card, entriesKI_card] at hc
          rw [hc]
          exact hcnt2
        refine ⟨?_, ?_, ?_, ?_, ?_⟩
        · rw [hset3]
          obtain ⟨k, hk⟩ := hm.pow2
          refine ⟨?_, ⟨k + 1, ?_⟩, ?_, hm.hintPow2, hm.hint16, ?_, hgwfb⟩
          · rw [hgl, hgn]
          · rw [hgn, hk, pow_succ]
          · rw [hgn]
            show 16 ≤ m.nbuckets * 2
            have h1 := hm.cap16
            omega
          · rw [hgc, hcntg]
        · rw [hset3]
          exact hgh
        · rw [hset3]
          exact presence_of_KI (by rw [hKIg]; exact Multiset.mem_cons_self _ _)
        · intro hnone
          refine ⟨?_, ?_, ?_, ?_, ?_⟩
          · rw [hset3]
            exact hgc
          · rw [hset3]
            exact hKIg
          · intro h1
            rw [hset3]
            exact ⟨hgn, hgo⟩
          · intro h1
            exact absurd h1.2 (by simp)
          · intro h1
            exact absurd htrig h1
        · intro x hx
          rw [hset3] at hx
          have hx2 : (none : Option α) = some x := hx
          exact absurd hx2 (by simp)
      | false =>
        have hset3 : hashmap_set cfg false m e
            = (none, ⟨m.nbuckets, m.capHint, m.count + 1, bks2, true⟩) := by
          rw [hset2, setFinish_insert, if_pos htrig, if_neg (by simp)]
        refine ⟨?_, ?_, ?_, ?_, ?_⟩
        · rw [hset3]
          refine ⟨?_, hm.pow2, hm.cap16, hm.hintPow2, hm.hint16, ?_, hok2, h42, h52, h62⟩
          · show bks2.length = m.nbuckets
            rw [hlen2, hlen_eq]
          · show m.count + 1 = (entriesL bks2).length
            rw [hcnt2]
        · rw [hset3]
        · rw [hset3]
          exact presence_of_KI hmemKI
        · intro hnone
          refine ⟨by rw [hset3], by rw [hset3]; exact hKI2, ?_, ?_, ?_⟩
          · intro h1
            exact absurd h1.2 (by simp)
          · intro h1
            rw [hset3]
            exact ⟨rfl, rfl⟩
          · intro h1
            exact absurd htrig h1
        · intro x hx
          rw [hset3] at hx
          have hx2 : (none : Option α) = some x := hx
          exact absurd hx2 (by simp)
    · have hset3 : hashmap_set cfg allocOk m e
          = (none, ⟨m.nbuckets, m.capHint, m.count + 1, bks2, m.oom⟩) := by
        rw [hset2, setFinish_insert, if_neg htrig]
      refine ⟨?_, ?_, ?_, ?_, ?_⟩
      · rw [hset3]
        refine ⟨?_, hm.pow2, hm.cap16, hm.hintPow2, hm.hint16, ?_, hok2, h42, h52, h62⟩
        · show bks2.length = m.nbuckets
          rw [hlen2, hlen_eq]
        · show m.count + 1 = (entriesL bks2).length
          rw [hcnt2]
      · rw [hset3]
      · rw [hset3]
        exact presence_of_KI hmemKI
      · intro hnone
        refine ⟨by rw [hset3], by rw [hset3]; exact hKI2, ?_, ?_, ?_⟩
        · intro h1
          exact absurd h1.1 htrig
        · intro h1
          exact absurd h1.1 htrig
        · intro h1
          rw [hset3]
          exact ⟨rfl, rfl⟩
      · intro x hx
        rw [hset3] at hx
        have hx2 : (none : Option α) = some x := hx
        exact absurd hx2 (by simp)

/-! ### The backward-shift measure: total stored displacement -/

theorem totalDib_set {α : Type} {bks : List (Option (Entry α))} {p : Nat}
    {op : Option (Entry α)} (hp : bks[p]? = some op) (o : Option (Entry α)) :
    totalDib (bks.set p o) + (op.elim 0 (fun b => b.dib))
      = totalDib bks + (o.elim 0 (fun b => b.dib)) := by
  have h := congrArg (fun s => (Multiset.map (fun b : Entry α => b.dib) s).sum)
    (entriesM_set hp o)
  simp only [Multiset.map_add, Multiset.sum_add] at h
  have hop : ∀ (oo : Option (Entry α)),
      (Multiset.map (fun b : Entry α => b.dib) ↑oo.toList).sum
        = oo.elim 0 (fun b => b.dib) := by
    intro oo
    cases oo <;> simp
  rw [hop, hop] at h
  exact h

theorem totalDib_fill {α : Type} {bks : List (Option (Entry α))} {p : Nat}
    (hp : bks[p]? = some none) (e : Entry α) :
    totalDib (bks.set p (some e)) = totalDib bks + e.dib := by
  have h := totalDib_set hp (some e)
  simpa using h

theorem totalDib_remove {α : Type} {bks : List (Option (Entry α))} {p : Nat}
    {r : Entry α} (hp : bks[p]? = some (some r)) :
    totalDib (bks.set p none) + r.dib = totalDib bks := by
  have h := totalDib_set hp none
  simpa using h

theorem totalDib_lt {α : Type} {bks : List (Option (Entry α))} (hok : bOK bks) :
    totalDib bks < bks.length * bks.length + 1 := by
  have hbound : ∀ x ∈ Multiset.map (fun b : Entry α => b.dib) ↑(entriesL bks),
      x ≤ bks.length - 1 := by
    intro x hx
    simp only [Multiset.mem_map, Multiset.mem_coe] at hx
    obtain ⟨b, hb, hbx⟩ := hx
    obtain ⟨p, hp⟩ := mem_entriesL.mp hb
    have := (hok p b hp).1
    omega
  have hsum := Multiset.sum_le_card_nsmul _ _ hbound
  rw [Multiset.card_map, Multiset.coe_card, smul_eq_mul] at hsum
  have hlen : (entriesL bks).length ≤ bks.length := List.length_filterMap_le _ _
  have h2 : (entriesL bks).length * (bks.length - 1) ≤ bks.length * bks.length := by
    calc (entriesL bks).length * (bks.length - 1)
        ≤ bks.length * (bks.length - 1) := Nat.mul_le_mul_right _ hlen
    _ ≤ bks.length * bks.length := Nat.mul_le_mul_left _ (by omega)
  show totalDib bks < bks.length * bks.length + 1
  have h3 : totalDib bks ≤ (entriesL bks).length * (bks.length - 1) := hsum
  omega

/-! ### Step lemmas for the backward shift -/

theorem shiftBack_step {α : Type} (fuel pos : Nat) (bks : List (Option (Entry α))) :
    shiftBack (fuel + 1) pos bks =
      match bks[(pos + 1) % bks.length]? with
      | some (some r) =>
        if 0 < r.dib then
          shiftBack fuel ((pos + 1) % bks.length)
            (bks.set pos (some ⟨r.hash, r.dib - 1, r.item⟩))
        else bks.set pos none
      | _ => bks.set pos none := by
  rw [shiftBack]

theorem shiftBack_occ {α : Type} {fuel pos : Nat} {bks : List (Option (Entry α))}
    {r : Entry α} (h : bks[(pos + 1) % bks.length]? = some (some r)) :
    shiftBack (fuel + 1) pos bks =
      if 0 < r.dib then
        shiftBack fuel ((pos + 1) % bks.length)
          (bks.set pos (some ⟨r.hash, r.dib - 1, r.item⟩))
      else bks.set pos none := by
  rw [shiftBack_step, h]

theorem shiftBack_empty {α : Type} {fuel pos : Nat} {bks : List (Option (Entry α))}
    (h : bks[(pos + 1) % bks.length]? = some none) :
    shiftBack (fuel + 1) pos bks = bks.set pos none := by
  rw [shiftBack_step, h]

theorem succ_succ_ne {n pos : Nat} (hn : 2 < n) (hpos : pos < n) :
    ((pos + 1) % n + 1) % n ≠ pos := by
  intro h
  rw [Nat.mod_add_mod] at h
  have h2 : (pos + 2) % n = (pos + 0) % n := by
    rw [h, Nat.add_zero, Nat.mod_eq_of_lt hpos]
  have := mod_inj (by omega) (by omega) pos h2
  omega

/-! ### The backward-shift lemma: compaction restores the full invariant
and merely vacates the deleted slot. -/

theorem shiftBack_spec {α : Type} (cfg : HashCfg α) :
    ∀ (fuel pos : Nat) (bks : List (Option (Entry α))),
    2 < bks.length →
    pos < bks.length →
    totalDib (bks.set pos none) < fuel →
    bOK (bks.set pos none) →
    inv5 cfg (bks.set pos none) →
    inv6 cfg (bks.set pos none) →
    (∀ (p : Nat) (c : Entry α), p < bks.length → p ≠ pos →
      (bks.set pos none)[(p + 1) % bks.length]? = some (some c) → 0 < c.dib →
      ∃ b, (bks.set pos none)[p]? = some (some b) ∧ c.dib ≤ b.dib + 1) →
    (∀ r : Entry α, (bks.set pos none)[(pos + 1) % bks.length]? = some (some r) →
      1 < r.dib →
      ∃ pb, (bks.set pos none)[(pos + bks.length - 1) % bks.length]? = some (some pb) ∧
        r.dib ≤ pb.dib + 2) →
    (shiftBack fuel pos bks).length = bks.length ∧
    bOK (shiftBack fuel pos bks) ∧ inv4 (shiftBack fuel pos bks) ∧
    inv5 cfg (shiftBack fuel pos bks) ∧ inv6 cfg (shiftBack fuel pos bks) ∧
    entriesKI (shiftBack fuel pos bks) = entriesKI (bks.set pos none) := by
  intro fuel
  induction fuel with
  | zero => intro pos bks h2 hpos hfuel; omega
  | succ fuel ih =>
    intro pos bks hlen2 hposlt hfuel hokC h5C h6C hS3 hS4
    have hlen0 : 0 < bks.length := by omega
    have hnextlt : (pos + 1) % bks.length < bks.length := Nat.mod_lt _ hlen0
    have hnextne : (pos + 1) % bks.length ≠ pos := mod_ne_self (by omega) hposlt
    obtain ⟨o, hoo⟩ : ∃ o, bks[(pos + 1) % bks.length]? = some o :=
      ⟨bks[(pos + 1) % bks.length], List.getElem?_eq_getElem hnextlt⟩
    cases o with
    | none =>
      rw [shiftBack_empty hoo]
      refine ⟨List.length_set .., hokC, ?_, h5C, h6C, rfl⟩
      intro p c hp hc hd
      rw [List.length_set] at hp hc
      by_cases hppos : p = pos
      · subst hppos
        rw [List.getElem?_set_ne (fun h => hnextne h.symm), hoo] at hc
        simp at hc
      · exact hS3 p c hp hppos hc hd
    | some r =>
      by_cases hrd : 0 < r.dib
      · have hoC : (bks.set pos none)[(pos + 1) % bks.length]? = some (some r) := by
          rw [List.getElem?_set_ne (fun h => hnextne h.symm)]
          exact hoo
        have hrfacts := hokC ((pos + 1) % bks.length) r hoC
        have hrdib : r.dib < bks.length := by
          have h1 := hrfacts.1
          rw [List.length_set] at h1
          exact h1
        have hrposC : (pos + 1) % bks.length = (r.hash + r.dib) % bks.length := by
          have h1 := hrfacts.2
          rw [List.length_set] at h1
          exact h1
        have hpos_eq : pos = (r.hash + (r.dib - 1)) % bks.length := by
          have h1 : ((r.hash + (r.dib - 1)) % bks.length + 1) % bks.length
              = (pos + 1) % bks.length := by
            rw [mod_step]
            have h2 : r.dib - 1 + 1 = r.dib := by omega
            rw [h2, ← hrposC]
          exact (succ_inj_mod (Nat.mod_lt _ hlen0) hposlt h1).symm
        have hsetset : (bks.set pos none).set pos (some ⟨r.hash, r.dib - 1, r.item⟩)
            = bks.set pos (some ⟨r.hash, r.dib - 1, r.item⟩) := List.set_set ..
        have hger : ∀ q, q ≠ (pos + 1) % bks.length → q ≠ pos →
            ((bks.set pos (some ⟨r.hash, r.dib - 1, r.item⟩)).set
              ((pos + 1) % bks.length) none)[q]? = (bks.set pos none)[q]? := by
          intro q hq1 hq2
          rw [List.getElem?_set_ne (fun h => hq1 h.symm),
            List.getElem?_set_ne (fun h => hq2 h.symm),
            List.getElem?_set_ne (fun h => hq2 h.symm)]
        have hgepos : ((bks.set pos (some ⟨r.hash, r.dib - 1, r.item⟩)).set
            ((pos + 1) % bks.length) none)[pos]?
            = some (some ⟨r.hash, r.dib - 1, r.item⟩) := by
          rw [List.getElem?_set_ne hnextne, List.getElem?_set_self hposlt]
        have hgenext : ((bks.set pos (some ⟨r.hash, r.dib - 1, r.item⟩)).set
            ((pos + 1) % bks.length) none)[(pos + 1) % bks.length]? = some none := by
          rw [List.getElem?_set_self (by rw [List.length_set]; exact hnextlt)]
        have hoR : (bks.set pos (some ⟨r.hash, r.dib - 1, r.item⟩))[(pos + 1)
            % bks.length]? = some (some r) := by
          rw [List.getElem?_set_ne (fun h => hnextne h.symm)]
          exact hoo
        have hKIeq : entriesKI ((bks.set pos (some ⟨r.hash, r.dib - 1, r.item⟩)).set
            ((pos + 1) % bks.length) none) = entriesKI (bks.set pos none) := by
          have k1 : entriesKI (bks.set pos (some ⟨r.hash, r.dib - 1, r.item⟩))
              = kiOf (⟨r.hash, r.dib - 1, r.item⟩ : Entry α)
                  ::ₘ entriesKI (bks.set pos none) := by
            rw [← hsetset]
            exact entriesKI_set_fill (List.getElem?_set_self hposlt) _
          have k2 := entriesKI_set_remove hoR
          have k3 : kiOf (⟨r.hash, r.dib - 1, r.item⟩ : Entry α) = kiOf r := rfl
          rw [k1, k3] at k2
          rw [← Multiset.singleton_add, add_comm] at k2
          exact add_left_cancel k2
        have htd : totalDib ((bks.set pos (some ⟨r.hash, r.dib - 1, r.item⟩)).set
            ((pos + 1) % bks.length) none) < fuel := by
          have t1 : totalDib (bks.set pos (some ⟨r.hash, r.dib - 1, r.item⟩))
              = totalDib (bks.set pos none) + (r.dib - 1) := by
            rw [← hsetset]
            exact totalDib_fill (List.getElem?_set_self hposlt) _
          have t2 := totalDib_remove hoR
          omega
        have hih := ih ((pos + 1) % bks.length)
          (bks.set pos (some ⟨r.hash, r.dib - 1, r.item⟩))
          (by rw [List.length_set]; exact hlen2)
          (by rw [List.length_set]; exact hnextlt)
          htd
          (by intro q b hqb
              rw [List.length_set, List.length_set]
              by_cases hq1 : q = (pos + 1) % bks.length
              · rw [hq1, hgenext] at hqb
                simp at hqb
              · by_cases hq2 : q = pos
                · subst hq2
                  rw [hgepos] at hqb
                  have hb : b = ⟨r.hash, r.dib - 1, r.item⟩ := by
                    simp only [Option.some.injEq] at hqb
                    exact hqb.symm
                  subst hb
                  exact ⟨by show r.dib - 1 < bks.length; omega, hpos_eq⟩
                · rw [hger q hq1 hq2] at hqb
                  have hfacts := hokC q b hqb
                  rw [List.length_set] at hfacts
                  exact hfacts
          )
          (by intro p p' x y hx hy hne
              by_cases hp1 : p = (pos + 1) % bks.length
              · rw [hp1, hgenext] at hx
                simp at hx
              · by_cases hp'1 : p' = (pos + 1) % bks.length
                · rw [hp'1, hgenext] at hy
                  simp at hy
                · by_cases hp2 : p = pos
                  · subst hp2
                    rw [hgepos] at hx
                    have hxr : x = ⟨r.hash, r.dib - 1, r.item⟩ := by
                      simp only [Option.some.injEq] at hx
                      exact hx.symm
                    subst hxr
                    by_cases hp'2 : p' = p
                    · exact absurd hp'2.symm hne
                    · rw [hger p' hp'1 (fun h => hp'2 (by rw [h]))] at hy
                      exact h5C ((p + 1) % bks.length) p' r y hoC hy
                        (fun h => hp'1 h.symm)
                  · rw [hger p hp1 hp2] at hx
                    by_cases hp'2 : p' = pos
                    · subst hp'2
                      rw [hgepos] at hy
                      have hyr : y = ⟨r.hash, r.dib - 1, r.item⟩ := by
                        simp only [Option.some.injEq] at hy
                        exact hy.symm
                      subst hyr
                      exact h5C p ((p' + 1) % bks.length) x r hx hoC
                        (fun h => hp1 h)
                    · rw [hger p' hp'1 hp'2] at hy
                      exact h5C p p' x y hx hy hne
          )
          (by intro q b hqb
              by_cases hq1 : q = (pos + 1) % bks.length
              · rw [hq1, hgenext] at hqb
                simp at hqb
              · by_cases hq2 : q = pos
                · subst hq2
                  rw [hgepos] at hqb
                  have hb : b = ⟨r.hash, r.dib - 1, r.item⟩ := by
                    simp only [Option.some.injEq] at hqb
                    exact hqb.symm
                  subst hb
                  exact h6C ((q + 1) % bks.length) r hoC
                · rw [hger q hq1 hq2] at hqb
                  exact h6C q b hqb
          )
          (by intro p c hp hpne hc hcd
              rw [List.length_set] at hp
              rw [List.length_set] at hc
              by_cases hc1 : (p + 1) % bks.length = pos
              · rw [hc1, hgepos] at hc
                have hcr : c = ⟨r.hash, r.dib - 1, r.item⟩ := by
                  simp only [Option.some.injEq] at hc
                  exact hc.symm
                have h1lt : 1 < r.dib := by
                  rw [hcr] at hcd
                  have h2 : 0 < r.dib - 1 := hcd
                  omega
                obtain ⟨pb, hpb, hpbd⟩ := hS4 r hoC h1lt
                have hppred : p = (pos + bks.length - 1) % bks.length :=
                  pred_of_succ hp hc1
                have hpredne1 : (pos + bks.length - 1) % bks.length ≠ pos :=
                  pred_ne_self (by omega) hposlt
                have hpredne2 : (pos + bks.length - 1) % bks.length
                    ≠ (pos + 1) % bks.length := by
                  intro h
                  have h2 := mod_succ_pred hposlt
                  rw [h] at h2
                  exact succ_succ_ne (by omega) hposlt h2
                refine ⟨pb, ?_, ?_⟩
                · rw [hppred, hger _ hpredne2 hpredne1]
                  exact hpb
                · rw [hcr]
                  show r.dib - 1 ≤ pb.dib + 1
                  omega
              · by_cases hc2 : (p + 1) % bks.length = (pos + 1) % bks.length
                · rw [hc2, hgenext] at hc
                  simp at hc
                · have hppos : p ≠ pos := by
                    intro h
                    rw [h] at hc2
                    exact hc2 rfl
                  rw [hger _ hc2 hc1] at hc
                  obtain ⟨b, hb, hbd⟩ := hS3 p c hp hppos hc hcd
                  refine ⟨b, ?_, hbd⟩
                  rw [hger p hpne hppos]
                  exact hb
          )
          (by intro r₂ hr₂ h1r₂
              rw [List.length_set] at hr₂
              have hne1 : ((pos + 1) % bks.length + 1) % bks.length
                  ≠ (pos + 1) % bks.length := mod_ne_self (by omega) hnextlt
              have hne2 : ((pos + 1) % bks.length + 1) % bks.length ≠ pos :=
                succ_succ_ne (by omega) hposlt
              rw [hger _ hne1 hne2] at hr₂
              obtain ⟨b, hb, hbd⟩ := hS3 ((pos + 1) % bks.length) r₂ hnextlt hnextne
                hr₂ (by omega)
              have hbr : b = r := by
                rw [hoC] at hb
                simp only [Option.some.injEq] at hb
                exact hb.symm
              refine ⟨⟨r.hash, r.dib - 1, r.item⟩, ?_, ?_⟩
              · rw [List.length_set, succ_pred_self hposlt]
                exact hgepos
              · show r₂.dib ≤ (r.dib - 1) + 2
                rw [hbr] at hbd
                omega
          )
        obtain ⟨hlenI, hokI, h4I, h5I, h6I, hKII⟩ := hih
        rw [shiftBack_occ hoo, if_pos hrd]
        refine ⟨?_, hokI, h4I, h5I, h6I, ?_⟩
        · rw [hlenI, List.length_set]
        · rw [hKII, hKIeq]
      · rw [shiftBack_occ hoo, if_neg hrd]
        refine ⟨List.length_set .., hokC, ?_, h5C, h6C, rfl⟩
        intro p c hp hc hd
        rw [List.length_set] at hp hc
        by_cases hppos : p = pos
        · subst hppos
          rw [List.getElem?_set_ne (fun h => hnextne h.symm), hoo] at hc
          have hcr : c = r := by
            simp only [Option.some.injEq] at hc
            exact hc.symm
          subst hcr
          omega
        · exact hS3 p c hp hppos hc hd

/-! ### Removal of a single entry preserves the pointwise invariants -/

theorem bOK_remove {α : Type} {bks : List (Option (Entry α))} {q : Nat}
    (hok : bOK bks) (hq : q < bks.length) : bOK (bks.set q none) := by
  intro p b hpb
  rw [List.length_set]
  by_cases hpq : p = q
  · subst hpq
    rw [List.getElem?_set_self hq] at hpb
    simp at hpb
  · rw [List.getElem?_set_ne (fun h => hpq h.symm)] at hpb
    exact hok p b hpb

theorem inv5_remove {α : Type} {cfg : HashCfg α} {bks : List (Option (Entry α))}
    {q : Nat} (h5 : inv5 cfg bks) (hq : q < bks.length) :
    inv5 cfg (bks.set q none) := by
  intro p p' x y hx hy hne
  by_cases hpq : p = q
  · subst hpq
    rw [List.getElem?_set_self hq] at hx
    simp at hx
  · rw [List.getElem?_set_ne (fun h => hpq h.symm)] at hx
    by_cases hp'q : p' = q
    · subst hp'q
      rw [List.getElem?_set_self hq] at hy
      simp at hy
    · rw [List.getElem?_set_ne (fun h => hp'q h.symm)] at hy
      exact h5 p p' x y hx hy hne

theorem inv6_remove {α : Type} {cfg : HashCfg α} {bks : List (Option (Entry α))}
    {q : Nat} (h6 : inv6 cfg bks) (hq : q < bks.length) :
    inv6 cfg (bks.set q none) := by
  intro p b hpb
  by_cases hpq : p = q
  · subst hpq
    rw [List.getElem?_set_self hq] at hpb
    simp at hpb
  · rw [List.getElem?_set_ne (fun h => hpq h.symm)] at hpb
    exact h6 p b hpb

/-! ### Unfolding lemmas for delete -/

theorem hashmap_delete_none {α : Type} {cfg : HashCfg α} {m : Hashmap α} {k : α}
    (hfind : probeFind cfg m.buckets (cfg.hash k) k m.nbuckets
      (cfg.hash k % m.nbuckets) 0 = none) :
    hashmap_delete cfg m k = (none, m) := by
  unfold hashmap_delete
  rw [hfind]

theorem hashmap_delete_found {α : Type} {cfg : HashCfg α} {m : Hashmap α} {k : α}
    {q : Nat} (hfind : probeFind cfg m.buckets (cfg.hash k) k m.nbuckets
      (cfg.hash k % m.nbuckets) 0 = some q) :
    hashmap_delete cfg m k = delFinish m q := by
  unfold hashmap_delete
  rw [hfind]

theorem delFinish_occ {α : Type} {m : Hashmap α} {q : Nat} {b : Entry α}
    (hb : m.buckets[q]? = some (some b)) :
    delFinish m q = (some b.item,
      ⟨m.nbuckets, m.capHint, m.count - 1,
        shiftBack (m.nbuckets * m.nbuckets + 1) q m.buckets, m.oom⟩) := by
  unfold delFinish
  rw [hb]

/-! ### The full specification of hashmap_delete -/

theorem hashmap_delete_spec {α : Type} {cfg : HashCfg α} (hL : LawfulCfg cfg)
    {m : Hashmap α} (hm : WFm cfg m) (k : α) :
    ((hashmap_delete cfg m k).1 = none → (hashmap_delete cfg m k).2 = m) ∧
    (∀ x, (hashmap_delete cfg m k).1 = some x →
      WFm cfg (hashmap_delete cfg m k).2 ∧
      (hashmap_delete cfg m k).2.count + 1 = m.count ∧
      (hashmap_delete cfg m k).2.nbuckets = m.nbuckets ∧
      (hashmap_delete cfg m k).2.capHint = m.capHint ∧
      (hashmap_delete cfg m k).2.oom = m.oom ∧
      (∃ (q : Nat) (b : Entry α), m.buckets[q]? = some (some b) ∧ b.item = x ∧
        (cfg.hash k == b.hash && cfg.keyEq k b.item) = true ∧
        entriesKI (hashmap_delete cfg m k).2.buckets
          = entriesKI (m.buckets.set q none)) ∧
      (∀ (p : Nat) (c : Entry α),
        (hashmap_delete cfg m k).2.buckets[p]? = some (some c) →
        (cfg.hash k == c.hash && cfg.keyEq k c.item) = false)) := by
  have hlen_eq := hm.len_eq
  have hlen3 : 2 < m.buckets.length := by
    have h1 := hm.cap16
    omega
  cases hfind : probeFind cfg m.buckets (cfg.hash k) k m.nbuckets
      (cfg.hash k % m.nbuckets) 0 with
  | none =>
    rw [hashmap_delete_none hfind]
    refine ⟨fun h => rfl, ?_⟩
    intro x hx
    have hx2 : (none : Option α) = some x := hx
    exact absurd hx2 (by simp)
  | some q =>
    obtain ⟨b, hb, hmatch⟩ := probeFind_sound hfind
    have hqlt : q < m.buckets.length := lt_length_of_getElem? hb
    rw [hashmap_delete_found hfind, delFinish_occ hb]
    have hshift := shiftBack_spec cfg (m.nbuckets * m.nbuckets + 1) q m.buckets
      hlen3 hqlt
      (by have h1 := totalDib_remove hb
          have h2 := totalDib_lt hm.wfb.ok
          rw [hlen_eq] at h2
          omega)
      (bOK_remove hm.wfb.ok hqlt)
      (inv5_remove hm.wfb.i5 hqlt)
      (inv6_remove hm.wfb.i6 hqlt)
      (by intro p c hp hpq hc hcd
          have hsne : (p + 1) % m.buckets.length ≠ q := by
            intro h
            rw [h, List.getElem?_set_self hqlt] at hc
            simp at hc
          rw [List.getElem?_set_ne (fun h => hsne h.symm)] at hc
          obtain ⟨b', hb', hbd⟩ := hm.wfb.i4 p c hp hc hcd
          exact ⟨b', by rw [List.getElem?_set_ne (fun h => hpq h.symm)]; exact hb', hbd⟩)
      (by intro r hr h1r
          have hnextne : (q + 1) % m.buckets.length ≠ q :=
            mod_ne_self (by omega) hqlt
          rw [List.getElem?_set_ne (fun h => hnextne h.symm)] at hr
          obtain ⟨b0, hb0, hb0d⟩ := hm.wfb.i4 q r hqlt hr (by omega)
          have hb0b : b0 = b := by
            rw [hb] at hb0
            simp only [Option.some.injEq] at hb0
            exact hb0.symm
          subst hb0b
          by_cases hbd0 : 0 < b0.dib
          · obtain ⟨pb, hpb, hpbd⟩ := hm.wfb.i4 ((q + m.buckets.length - 1)
              % m.buckets.length) b0 (Nat.mod_lt _ (by omega))
              (by rw [mod_succ_pred hqlt]; exact hb) hbd0
            refine ⟨pb, ?_, by omega⟩
            rw [List.getElem?_set_ne
              (fun h => pred_ne_self (by omega) hqlt h.symm)]
            exact hpb
          · omega)
    obtain ⟨hlenS, hokS, h4S, h5S, h6S, hKIS⟩ := hshift
    have hcnt : (entriesL (m.buckets.set q none)).length + 1
        = (entriesL m.buckets).length := entriesL_length_remove hb
    have hcntS : (entriesL (shiftBack (m.nbuckets * m.nbuckets + 1) q
        m.buckets)).length + 1 = (entriesL m.buckets).length := by
      have hc := congrArg Multiset.card hKIS
      rw [entriesKI_card, entriesKI_card] at hc
      omega
    refine ⟨?_, ?_⟩
    · intro h
      have h2 : some b.item = (none : Option α) := h
      exact absurd h2 (by simp)
    · intro x hx
      have hx2 : some b.item = some x := hx
      have hxb : x = b.item := by
        simp only [Option.some.injEq] at hx2
        exact hx2.symm
      refine ⟨?_, ?_, rfl, rfl, rfl, ⟨q, b, hb, hxb.symm, hmatch, hKIS⟩, ?_⟩
      · refine ⟨?_, hm.pow2, hm.cap16, hm.hintPow2, hm.hint16, ?_,
          hokS, h4S, h5S, h6S⟩
        · show (shiftBack (m.nbuckets * m.nbuckets + 1) q m.buckets).length
            = m.nbuckets
          rw [hlenS, hlen_eq]
        · show m.count - 1 = (entriesL (shiftBack (m.nbuckets * m.nbuckets + 1) q
            m.buckets)).length
          have hceq := hm.count_eq
          omega
      · show m.count - 1 + 1 = m.count
        have hceq := hm.count_eq
        omega
      · intro p c hc
        have hkiC : kiOf c ∈ entriesKI (m.buckets.set q none) := by
          rw [← hKIS]
          exact kiOf_mem_of_getElem? hc
        obtain ⟨p', c', hc', hki⟩ := exists_entry_of_KI_mem hkiC
        have hp'q : p' ≠ q := by
          intro h
          rw [h, List.getElem?_set_self hqlt] at hc'
          simp at hc'
        rw [List.getElem?_set_ne (fun h => hp'q h.symm)] at hc'
        have hitem : c'.item = c.item := by
          have h1 := congrArg Prod.snd hki
          exact h1
        have hkeyF : cfg.keyEq k c.item = false := by
          cases hkx : cfg.keyEq k c.item with
          | false => rfl
          | true =>
            have hkb : cfg.keyEq k b.item = true :=
              ((Bool.and_eq_true _ _).mp hmatch).2
            have hbc : cfg.keyEq b.item c'.item = true := by
              rw [hitem]
              exact hL.eq_trans _ _ _ (hL.eq_symm _ _ hkb) hkx
            have h5bc := hm.wfb.i5 q p' b c' hb hc' (fun h => hp'q h.symm)
            rw [hbc] at h5bc
            exact absurd h5bc (by simp)
        rw [hkeyF, Bool.and_false]

/-! ### Construction: capacity rounding -/

theorem roundCapGo_pow2 : ∀ (fuel n acc : Nat), (∃ k, acc = 2 ^ k) →
    ∃ k, roundCapGo fuel n acc = 2 ^ k := by
  intro fuel
  induction fuel with
  | zero => intro n acc h; exact h
  | succ fuel ih =>
    intro n acc h
    rw [roundCapGo]
    split
    · exact h
    · obtain ⟨k, hk⟩ := h
      exact ih n (2 * acc) ⟨k + 1, by rw [hk, pow_succ, Nat.mul_comm]⟩

theorem roundCapGo_ge_acc : ∀ (fuel n acc : Nat), acc ≤ roundCapGo fuel n acc := by
  intro fuel
  induction fuel with
  | zero => intro n acc; exact le_refl _
  | succ fuel ih =>
    intro n acc
    rw [roundCapGo]
    split
    · exact le_refl _
    · exact le_trans (by omega) (ih n (2 * acc))

theorem roundCapGo_ge_n : ∀ (fuel n acc : Nat), n ≤ acc * 2 ^ fuel →
    n ≤ roundCapGo fuel n acc := by
  intro fuel
  induction fuel with
  | zero =>
    intro n acc h
    rw [pow_zero, Nat.mul_one] at h
    rw [roundCapGo]
    exact h
  | succ fuel ih =>
    intro n acc h
    rw [roundCapGo]
    split
    · assumption
    · apply ih
      have h2 : acc * 2 ^ (fuel + 1) = 2 * acc * 2 ^ fuel := by ring
      rw [← h2]
      exact h

theorem roundCapGo_min : ∀ (fuel n acc c : Nat), (∃ k, acc = 2 ^ k) →
    (∃ j, c = 2 ^ j) → acc ≤ c → n ≤ c → roundCapGo fuel n acc ≤ c := by
  intro fuel
  induction fuel with
  | zero => intro n acc c h1 h2 h3 h4; rw [roundCapGo]; exact h3
  | succ fuel ih =>
    intro n acc c h1 h2 h3 h4
    rw [roundCapGo]
    split
    · exact h3
    · rename_i hnacc
      obtain ⟨k, hk⟩ := h1
      obtain ⟨j, hj⟩ := h2
      have hlt : acc < c := by omega
      have hkj : k < j := by
        rw [hk, hj] at hlt
        exact (Nat.pow_lt_pow_iff_right (by omega)).mp hlt
      have h2acc : 2 * acc ≤ c := by
        rw [hk, hj]
        have : 2 * 2 ^ k = 2 ^ (k + 1) := by rw [pow_succ, Nat.mul_comm]
        rw [this]
        exact Nat.pow_le_pow_right (by omega) (by omega)
      exact ih n (2 * acc) c ⟨k + 1, by rw [hk, pow_succ, Nat.mul_comm]⟩ ⟨j, hj⟩ h2acc h4

theorem roundCap_spec (hint : Nat) :
    (∃ k, roundCap hint = 2 ^ k) ∧ 16 ≤ roundCap hint ∧ hint ≤ roundCap hint ∧
    (∀ c, (∃ j, c = 2 ^ j) → 16 ≤ c → hint ≤ c → roundCap hint ≤ c) := by
  refine ⟨roundCapGo_pow2 hint hint 16 ⟨4, rfl⟩, roundCapGo_ge_acc hint hint 16, ?_, ?_⟩
  · apply roundCapGo_ge_n
    calc hint ≤ 2 ^ hint := Nat.le_of_lt (Nat.lt_two_pow hint)
    _ ≤ 16 * 2 ^ hint := Nat.le_mul_of_pos_left _ (by omega)
  · intro c hc h16 hhint
    exact roundCapGo_min hint hint 16 c ⟨4, rfl⟩ hc h16 hhint

theorem hashmap_new_WF {α : Type} (cfg : HashCfg α) (hint : Nat) :
    WFm cfg (hashmap_new α hint) := by
  obtain ⟨hpow, h16, hge, hmin⟩ := roundCap_spec hint
  refine ⟨?_, hpow, h16, hpow, h16, ?_, WFb_replicate cfg (roundCap hint)⟩
  · show (List.replicate (roundCap hint) (none : Option (Entry α))).length = roundCap hint
    exact List.length_replicate ..
  · show 0 = (entriesL (List.replicate (roundCap hint) (none : Option (Entry α)))).length
    rw [entriesL_replicate]
    rfl

/-! ### Clear -/

theorem hashmap_clear_true {α : Type} (allocOk : Bool) (m : Hashmap α) :
    hashmap_clear allocOk m true
      = (⟨m.nbuckets, m.nbuckets, 0, List.replicate m.nbuckets none, m.oom⟩,
          (entriesL m.buckets).map (fun b => b.item)) := rfl

theorem hashmap_clear_false {α : Type} (allocOk : Bool) (m : Hashmap α) :
    hashmap_clear allocOk m false
      = (if m.nbuckets ≠ m.capHint then
          (if allocOk then
            (⟨m.capHint, m.capHint, 0, List.replicate m.capHint none, m.oom⟩,
              (entriesL m.buckets).map (fun b => b.item))
          else
            (⟨m.nbuckets, m.capHint, 0, List.replicate m.nbuckets none, true⟩,
              (entriesL m.buckets).map (fun b => b.item)))
        else
          (⟨m.nbuckets, m.capHint, 0, List.replicate m.nbuckets none, m.oom⟩,
            (entriesL m.buckets).map (fun b => b.item))) := rfl

theorem hashmap_clear_spec {α : Type} {cfg : HashCfg α} {m : Hashmap α}
    (hm : WFm cfg m) (allocOk update_cap : Bool) :
    WFm cfg (hashmap_clear allocOk m update_cap).1 ∧
    (hashmap_clear allocOk m update_cap).1.count = 0 ∧
    (hashmap_clear allocOk m update_cap).2
      = (entriesL m.buckets).map (fun b => b.item) ∧
    (∀ p : Nat, p < (hashmap_clear allocOk m update_cap).1.buckets.length →
      (hashmap_clear allocOk m update_cap).1.buckets[p]? = some none) ∧
    (m.oom = true → (hashmap_clear allocOk m update_cap).1.oom = true) ∧
    (update_cap = true →
      (hashmap_clear allocOk m update_cap).1.nbuckets = m.nbuckets ∧
      (hashmap_clear allocOk m update_cap).1.buckets.length = m.buckets.length ∧
      (hashmap_clear allocOk m update_cap).1.capHint = m.nbuckets ∧
      (hashmap_clear allocOk m update_cap).1.oom = m.oom ∧
      ∀ allocOk2 : Bool,
        hashmap_clear allocOk2 m update_cap = hashmap_clear allocOk m update_cap) := by
  have hbuild : ∀ (nb hint : Nat) (oo : Bool), (∃ k, nb = 2 ^ k) → 16 ≤ nb →
      (∃ k, hint = 2 ^ k) → 16 ≤ hint →
      WFm cfg (⟨nb, hint, 0, List.replicate nb none, oo⟩ : Hashmap α) := by
    intro nb hint oo hp h16 hp2 h162
    refine ⟨?_, hp, h16, hp2, h162, ?_, WFb_replicate cfg nb⟩
    · show (List.replicate nb (none : Option (Entry α))).length = nb
      exact List.length_replicate ..
    · show 0 = (entriesL (List.replicate nb (none : Option (Entry α)))).length
      rw [entriesL_replicate]
      rfl
  have hrepl : ∀ (nb : Nat) (p : Nat), p < nb →
      (List.replicate nb (none : Option (Entry α)))[p]? = some none := by
    intro nb p hp
    rw [List.getElem?_replicate, if_pos hp]
  cases update_cap with
  | true =>
    rw [hashmap_clear_true]
    refine ⟨hbuild _ _ _ hm.pow2 hm.cap16 hm.pow2 hm.cap16, rfl, rfl, ?_, ?_, ?_⟩
    · intro p hp
      show (List.replicate m.nbuckets (none : Option (Entry α)))[p]? = some none
      apply hrepl
      have h2 : (List.replicate m.nbuckets (none : Option (Entry α))).length
          = m.nbuckets := List.length_replicate ..
      rw [← h2]
      exact hp
    · intro h
      exact h
    · intro h
      refine ⟨rfl, ?_, rfl, rfl, ?_⟩
      · show (List.replicate m.nbuckets (none : Option (Entry α))).length
          = m.buckets.length
        rw [List.length_replicate, hm.len_eq]
      · intro allocOk2
        rw [hashmap_clear_true]
  | false =>
    rw [hashmap_clear_false]
    by_cases hne : m.nbuckets ≠ m.capHint
    · rw [if_pos hne]
      cases allocOk with
      | true =>
        rw [if_pos rfl]
        refine ⟨hbuild _ _ _ hm.hintPow2 hm.hint16 hm.hintPow2 hm.hint16, rfl, rfl,
          ?_, ?_, ?_⟩
        · intro p hp
          show (List.replicate m.capHint (none : Option (Entry α)))[p]? = some none
          apply hrepl
          have h2 : (List.replicate m.capHint (none : Option (Entry α))).length
              = m.capHint := List.length_replicate ..
          rw [← h2]
          exact hp
        · intro h
          exact h
        · intro h
          exact absurd h (by simp)
      | false =>
        rw [if_neg (by simp)]
        refine ⟨hbuild _ _ _ hm.pow2 hm.cap16 hm.hintPow2 hm.hint16, rfl, rfl,
          ?_, ?_, ?_⟩
        · intro p hp
          show (List.replicate m.nbuckets (none : Option (Entry α)))[p]? = some none
          apply hrepl
          have h2 : (List.replicate m.nbuckets (none : Option (Entry α))).length
              = m.nbuckets := List.length_replicate ..
          rw [← h2]
          exact hp
        · intro h
          rfl
        · intro h
          exact absurd h (by simp)
    · rw [if_neg hne]
      refine ⟨hbuild _ _ _ hm.pow2 hm.cap16 hm.hintPow2 hm.hint16, rfl, rfl,
        ?_, ?_, ?_⟩
      · intro p hp
        show (List.replicate m.nbuckets (none : Option (Entry α)))[p]? = some none
        apply hrepl
        have h2 : (List.replicate m.nbuckets (none : Option (Entry α))).length
            = m.nbuckets := List.length_replicate ..
        rw [← h2]
        exact hp
      · intro h
        exact h
      · intro h
        exact absurd h (by simp)

/-! ### Reachable tables are well-formed -/

theorem Reach_WF {α : Type} {cfg : HashCfg α} (hL : LawfulCfg cfg) :
    ∀ {m : Hashmap α}, Reach cfg m → WFm cfg m := by
  intro m h
  induction h with
  | new hint => exact hashmap_new_WF cfg hint
  | set allocOk e hr hcount ih => exact (hashmap_set_spec hL ih hcount allocOk e).1
  | del k hr ih =>
    rename_i m0
    cases hdel : (hashmap_delete cfg m0 k).1 with
    | none =>
      rw [(hashmap_delete_spec hL ih k).1 hdel]
      exact ih
    | some x => exact ((hashmap_delete_spec hL ih k).2 x hdel).1
  | clear allocOk update_cap hr ih =>
    exact (hashmap_clear_spec ih allocOk update_cap).1

/-! ### Small corollaries for empty tables and membership -/

theorem get_none_of_no_entries {α : Type} {cfg : HashCfg α} {m : Hashmap α}
    (h : ∀ (p : Nat) (c : Entry α), m.buckets[p]? = some (some c) → False) (k : α) :
    hashmap_get cfg m k = none := by
  cases hg : hashmap_get cfg m k with
  | none => rfl
  | some x =>
    obtain ⟨p, b, hb, -, -⟩ := hashmap_get_sound hg
    exact absurd hb (fun hh => h p b hh)

theorem probe_none_of_no_entries {α : Type} {m : Hashmap α}
    (h : ∀ (p : Nat) (c : Entry α), m.buckets[p]? = some (some c) → False)
    (position : Nat) : hashmap_probe m position = none := by
  cases hb : m.buckets[position % m.nbuckets]? with
  | none => unfold hashmap_probe; rw [hb]
  | some o =>
    cases o with
    | none => unfold hashmap_probe; rw [hb]
    | some c => exact absurd hb (fun hh => h _ c hh)

theorem no_entries_of_KI_zero {α : Type} {bks : List (Option (Entry α))}
    (h : entriesKI bks = 0) :
    ∀ (p : Nat) (c : Entry α), bks[p]? = some (some c) → False := by
  intro p c hc
  have hmem := kiOf_mem_of_getElem? hc
  rw [h] at hmem
  exact Multiset.not_mem_zero _ hmem

theorem get_of_KI_mem {α : Type} {cfg : HashCfg α} (hL : LawfulCfg cfg)
    {m : Hashmap α} (hm : WFm cfg m) {h0 : Nat} {x : α}
    (hmem : (h0, x) ∈ entriesKI m.buckets) (hh : h0 = cfg.hash x) :
    hashmap_get cfg m x = some x := by
  obtain ⟨q, b, hb, hitem, hhash⟩ := presence_of_KI hmem
  have hmatch : (cfg.hash x == b.hash && cfg.keyEq x b.item) = true := by
    rw [hhash, hitem, hh]
    simp [hL.eq_refl x]
  have hres := hashmap_get_finds hL hm hb hmatch
  rw [hres, hitem]

theorem probeFind_hits {α : Type} {cfg : HashCfg α} (hL : LawfulCfg cfg)
    {m : Hashmap α} (hm : WFm cfg m) {p : Nat} {b : Entry α} {k : α}
    (hb : m.buckets[p]? = some (some b))
    (hmatch : (cfg.hash k == b.hash && cfg.keyEq k b.item) = true) :
    probeFind cfg m.buckets (cfg.hash k) k m.nbuckets
      (cfg.hash k % m.nbuckets) 0 = some p := by
  have hkb : cfg.hash k = b.hash := eq_of_beq ((Bool.and_eq_true _ _).mp hmatch).1
  have hlen : m.buckets.length = m.nbuckets := hm.len_eq
  have hdib : b.dib < m.buckets.length := (hm.wfb.ok p b hb).1
  have h0 : cfg.hash k % m.nbuckets = (b.hash + 0) % m.buckets.length := by
    rw [Nat.add_zero, ← hkb, hlen]
  rw [h0]
  exact probeFind_complete hL hm.wfb hb hmatch m.nbuckets 0 (Nat.zero_le _) (by omega)

theorem hashmap_delete_hits {α : Type} {cfg : HashCfg α} (hL : LawfulCfg cfg)
    {m : Hashmap α} (hm : WFm cfg m) {p : Nat} {b : Entry α} {k : α}
    (hb : m.buckets[p]? = some (some b))
    (hmatch : (cfg.hash k == b.hash && cfg.keyEq k b.item) = true) :
    (hashmap_delete cfg m k).1 = some b.item := by
  rw [hashmap_delete_found (probeFind_hits hL hm hb hmatch), delFinish_occ hb]

/-! ### The sticky OOM flag: no operation clears it -/

theorem setFinish_oom {α : Type} (cfg : HashCfg α) (allocOk : Bool) (m2 : Hashmap α)
    (pr : Option α × List (Option (Entry α))) (h : m2.oom = true) :
    (setFinish cfg allocOk m2 pr).2.oom = true := by
  obtain ⟨r1, bks⟩ := pr
  cases r1 with
  | some old =>
    rw [setFinish_replace]
    exact h
  | none =>
    rw [setFinish_insert]
    split
    · split
      · exact h
      · rfl
    · exact h

theorem hashmap_set_oom {α : Type} (cfg : HashCfg α) (allocOk : Bool) (m2 : Hashmap α)
    (e2 : α) (h : m2.oom = true) : ((hashmap_set cfg allocOk m2 e2).2).oom = true :=
  setFinish_oom cfg allocOk m2 _ h

theorem hashmap_delete_oom {α : Type} (cfg : HashCfg α) (m2 : Hashmap α) (k : α)
    (h : m2.oom = true) : ((hashmap_delete cfg m2 k).2).oom = true := by
  cases hfind : probeFind cfg m2.buckets (cfg.hash k) k m2.nbuckets
      (cfg.hash k % m2.nbuckets) 0 with
  | none =>
    rw [hashmap_delete_none hfind]
    exact h
  | some q =>
    rw [hashmap_delete_found hfind]
    cases hb : m2.buckets[q]? with
    | none =>
      unfold delFinish
      rw [hb]
      exact h
    | some o =>
      cases o with
      | none =>
        unfold delFinish
        rw [hb]
        exact h
      | some b =>
        rw [delFinish_occ hb]
        exact h

theorem hashmap_clear_oom {α : Type} (allocOk update_cap : Bool) (m2 : Hashmap α)
    (h : m2.oom = true) : ((hashmap_clear allocOk m2 update_cap).1).oom = true := by
  cases update_cap with
  | true =>
    rw [hashmap_clear_true]
    exact h
  | false =>
    rw [hashmap_clear_false]
    split
    · split
      · exact h
      · rfl
    · exact h

/-- Well-formedness is preserved by a set step (standalone form, used to
discharge hypotheses on concrete tables). -/
theorem WFm_set {α : Type} {cfg : HashCfg α} (hL : LawfulCfg cfg) {m : Hashmap α}
    (hm : WFm cfg m) (hroom : m.count < m.nbuckets) (allocOk : Bool) (e : α) :
    WFm cfg (hashmap_set cfg allocOk m e).2 :=
  (hashmap_set_spec hL hm hroom allocOk e).1

/-! ### The concrete witness configuration is lawful -/

theorem lawful_cfg0 : LawfulCfg cfg0 := by
  refine ⟨?_, ?_, ?_, ?_⟩
  · intro a b h
    have h2 : a = b := by simpa [cfg0] using h
    rw [h2]
  · intro a
    simp [cfg0]
  · intro a b h
    simp only [cfg0] at h ⊢
    simp only [beq_iff_eq] at h ⊢
    omega
  · intro a b c h1 h2
    simp only [cfg0, beq_iff_eq] at h1 h2 ⊢
    omega

theorem Reach_insertAll : ∀ (ks : List Nat) (m : Hashmap Nat), Reach cfg0 m →
    insertAllOK ks m = true → Reach cfg0 (insertAll ks m) := by
  intro ks
  induction ks with
  | nil =>
    intro m hr _
    exact hr
  | cons k ks ih =>
    intro m hr hok
    have hok2 : (decide (m.count < m.nbuckets)
        && insertAllOK ks (hashmap_set cfg0 true m k).2) = true := hok
    have hok3 := (Bool.and_eq_true _ _).mp hok2
    have hroom : m.count < m.nbuckets := of_decide_eq_true hok3.1
    have hstep : insertAll (k :: ks) m
        = insertAll ks (hashmap_set cfg0 true m k).2 := rfl
    rw [hstep]
    exact ih _ (Reach.set true k hr hroom) hok3.2

theorem WFm_mGrown : WFm cfg0 mGrown :=
  ⟨by decide, ⟨5, by decide⟩, by decide, ⟨4, by decide⟩, by decide, by decide,
    WFb_replicate cfg0 32⟩

/-! ### The ten checked claims -/

/-- C1: set/get round-trip.  For every lawful configuration, well-formed
table with a free bucket, allocation outcome and element, after
hashmap_set the inserted element is returned by hashmap_get on its key. -/
theorem C1_set_get_roundtrip {α : Type} {cfg : HashCfg α} (hL : LawfulCfg cfg)
    {m : Hashmap α} (hm : WFm cfg m) (hroom : m.count < m.nbuckets)
    (allocOk : Bool) (e : α) :
    hashmap_get cfg (hashmap_set cfg allocOk m e).2 e = some e := by
  obtain ⟨hWF, -, ⟨q, b, hb, hitem, hhash⟩, -, -⟩ :=
    hashmap_set_spec hL hm hroom allocOk e
  have hmatch : (cfg.hash e == b.hash && cfg.keyEq e b.item) = true := by
    rw [hhash, hitem]
    simp [hL.eq_refl e]
  have hres := hashmap_get_finds hL hWF hb hmatch
  rw [hres, hitem]

theorem C1_witness :
    (hashmap_new Nat 0).count < (hashmap_new Nat 0).nbuckets ∧
    hashmap_get cfg0 (hashmap_set cfg0 true (hashmap_new Nat 0) 7).2 7 = some 7 :=
  ⟨by decide,
    C1_set_get_roundtrip lawful_cfg0 (hashmap_new_WF cfg0 0) (by decide) true 7⟩

/-- C2: after any sequence of interface operations (any reachable table),
every occupied bucket at physical position p stores exactly the circular
distance from its ideal position (hash masked by capacity − 1) to p. -/
theorem C2_dib_invariant {α : Type} {cfg : HashCfg α} (hL : LawfulCfg cfg)
    {m : Hashmap α} (hr : Reach cfg m) {p : Nat} {b : Entry α}
    (hb : m.buckets[p]? = some (some b)) :
    b.dib = (p + m.nbuckets - (b.hash &&& (m.nbuckets - 1))) % m.nbuckets := by
  have hm := Reach_WF hL hr
  obtain ⟨k, hk⟩ := hm.pow2
  have hmask : b.hash &&& (m.nbuckets - 1) = b.hash % m.nbuckets := by
    rw [hk]
    exact Nat.and_pow_two_sub_one_eq_mod b.hash k
  rw [hmask]
  obtain ⟨hdib, hpos⟩ := hm.wfb.ok p b hb
  rw [hm.len_eq] at hdib hpos
  have hn : 0 < m.nbuckets := by
    have := hm.cap16
    omega
  have hi : b.hash % m.nbuckets < m.nbuckets := Nat.mod_lt _ hn
  have hp2 : p = (b.hash % m.nbuckets + b.dib) % m.nbuckets := by
    rw [hpos, Nat.add_mod, Nat.mod_eq_of_lt hdib]
  rcases Nat.lt_or_ge (b.hash % m.nbuckets + b.dib) m.nbuckets with hc | hc
  · have hp3 : p = b.hash % m.nbuckets + b.dib := by
      rw [hp2, Nat.mod_eq_of_lt hc]
    have hq : p + m.nbuckets - b.hash % m.nbuckets = b.dib + m.nbuckets := by
      omega
    rw [hq, Nat.add_mod_right, Nat.mod_eq_of_lt hdib]
  · have hlt2 : b.hash % m.nbuckets + b.dib - m.nbuckets < m.nbuckets := by
      omega
    have hp3 : p = b.hash % m.nbuckets + b.dib - m.nbuckets := by
      rw [hp2, Nat.mod_eq_sub_mod hc, Nat.mod_eq_of_lt hlt2]
    have hq : p + m.nbuckets - b.hash % m.nbuckets = b.dib := by
      omega
    rw [hq, Nat.mod_eq_of_lt hdib]

/-- C3: whenever hashmap_delete returns a removed element, the key is
afterwards absent from hashmap_get and the count has dropped by exactly
one; and in the single-key scenario (insert one element into a fresh
table, then delete it) the delete returns the element, get reports absent,
the count is zero, and hashmap_probe at the key's ideal position reports
absent, so no tombstone lingers. -/
theorem C3_delete {α : Type} {cfg : HashCfg α} (hL : LawfulCfg cfg) :
    (∀ m : Hashmap α, WFm cfg m → ∀ (k x : α),
      (hashmap_delete cfg m k).1 = some x →
      hashmap_get cfg (hashmap_delete cfg m k).2 k = none ∧
      (hashmap_delete cfg m k).2.count + 1 = m.count) ∧
    (∀ (hint : Nat) (e : α),
      (hashmap_delete cfg (hashmap_set cfg true (hashmap_new α hint) e).2 e).1
        = some e ∧
      hashmap_get cfg
        (hashmap_delete cfg (hashmap_set cfg true (hashmap_new α hint) e).2 e).2 e
        = none ∧
      (hashmap_delete cfg (hashmap_set cfg true (hashmap_new α hint) e).2 e).2.count
        = 0 ∧
      hashmap_probe
        (hashmap_delete cfg (hashmap_set cfg true (hashmap_new α hint) e).2 e).2
        (cfg.hash e) = none) := by
  constructor
  · intro m hm k x hdel
    obtain ⟨hWF, hcount, -, -, -, -, hnomatch⟩ :=
      (hashmap_delete_spec hL hm k).2 x hdel
    exact ⟨(hashmap_get_none_iff hL hWF k).mpr hnomatch, hcount⟩
  · intro hint e
    have hm0 : WFm cfg (hashmap_new α hint) := hashmap_new_WF cfg hint
    have hroom : (hashmap_new α hint).count < (hashmap_new α hint).nbuckets := by
      have h16 := hm0.cap16
      show 0 < (hashmap_new α hint).nbuckets
      omega
    obtain ⟨hWF1, -, ⟨q, b, hb, hitem, hhash⟩, hins, hrep⟩ :=
      hashmap_set_spec hL hm0 hroom true e
    have h1none : (hashmap_set cfg true (hashmap_new α hint) e).1 = none := by
      cases h1 : (hashmap_set cfg true (hashmap_new α hint) e).1 with
      | none => rfl
      | some x =>
        obtain ⟨-, -, -, q0, b0, hb0, -⟩ := hrep x h1
        exact absurd hb0 (fun hh => replicate_no_entry hh)
    obtain ⟨hcount1, -, -, -, -⟩ := hins h1none
    have hcount1n : (hashmap_set cfg true (hashmap_new α hint) e).2.count = 1 := by
      rw [hcount1]
      rfl
    have hmatch : (cfg.hash e == b.hash && cfg.keyEq e b.item) = true := by
      rw [hhash, hitem]
      simp [hL.eq_refl e]
    have hdel1 : (hashmap_delete cfg (hashmap_set cfg true (hashmap_new α hint) e).2 e).1
        = some e := by
      rw [hashmap_delete_hits hL hWF1 hb hmatch, hitem]
    obtain ⟨hWF2, hcount2, -, -, -, ⟨q2, b2, hb2, -, -, hKI⟩, hnomatch⟩ :=
      (hashmap_delete_spec hL hWF1 e).2 e hdel1
    have hcount0 : (hashmap_delete cfg (hashmap_set cfg true (hashmap_new α hint) e).2 e).2.count
        = 0 := by
      omega
    have hKIzero : entriesKI
        (hashmap_delete cfg (hashmap_set cfg true (hashmap_new α hint) e).2 e).2.buckets
        = 0 := by
      rw [hKI]
      have hc1 : (entriesL (hashmap_set cfg true (hashmap_new α hint) e).2.buckets).length
          = 1 := by
        rw [← hWF1.count_eq]
        exact hcount1n
      have hc2 := entriesL_length_remove hb2
      rw [hc1] at hc2
      have hc3 : (entriesL
          ((hashmap_set cfg true (hashmap_new α hint) e).2.buckets.set q2 none)).length
          = 0 := by omega
      have hc4 := entriesKI_card
        ((hashmap_set cfg true (hashmap_new α hint) e).2.buckets.set q2 none)
      rw [hc3] at hc4
      exact Multiset.card_eq_zero.mp hc4
    have hnoe := no_entries_of_KI_zero hKIzero
    exact ⟨hdel1, (hashmap_get_none_iff hL hWF2 e).mpr hnomatch, hcount0,
      probe_none_of_no_entries hnoe (cfg.hash e)⟩

theorem C3_witness :
    (hashmap_delete cfg0 (hashmap_set cfg0 true (hashmap_new Nat 16) 5).2 5).1
      = some 5 ∧
    hashmap_get cfg0
      (hashmap_delete cfg0 (hashmap_set cfg0 true (hashmap_new Nat 16) 5).2 5).2 5
      = none ∧
    (hashmap_delete cfg0 (hashmap_set cfg0 true (hashmap_new Nat 16) 5).2 5).2.count
      = 0 ∧
    hashmap_probe
      (hashmap_delete cfg0 (hashmap_set cfg0 true (hashmap_new Nat 16) 5).2 5).2
      (cfg0.hash 5) = none :=
  (C3_delete lawful_cfg0).2 16 5

/-- C4 counterexample: the claimed walk-through is off by one.  With a
capacity hint of 16 the table still has 16 buckets after 12 distinct
inserts, so the 12th insert does not trigger the grow to 32 (occupancy 12
is not strictly greater than the threshold 12 = 16·3/4). -/
theorem C4_counterexample :
    (insertAll (List.range 12) (hashmap_new Nat 16)).count = 12 ∧
    (insertAll (List.range 12) (hashmap_new Nat 16)).nbuckets = 16 ∧
    ¬ (insertAll (List.range 12) (hashmap_new Nat 16)).nbuckets = 32 := by
  decide

/-- C4 (amended): with a capacity hint of 16, the table still has 16
buckets after 11 and after 12 distinct inserts; the 13th distinct insert
triggers the grow that doubles the bucket count to 32, after which all
previously inserted keys (and the new one) remain retrievable; and in
general an insert that increases occupancy doubles the bucket count
exactly when the new occupancy strictly exceeds capacity·3/4 (and
allocation succeeds), leaving it unchanged otherwise. -/
theorem C4_grow_amended :
    ((insertAll (List.range 11) (hashmap_new Nat 16)).nbuckets = 16 ∧
     (insertAll (List.range 12) (hashmap_new Nat 16)).nbuckets = 16 ∧
     (insertAll (List.range 13) (hashmap_new Nat 16)).nbuckets = 32 ∧
     ((List.range 13).all fun k =>
        hashmap_get cfg0 (insertAll (List.range 13) (hashmap_new Nat 16)) k
          == some k) = true) ∧
    (∀ {α : Type} {cfg : HashCfg α}, LawfulCfg cfg → ∀ {m : Hashmap α},
      WFm cfg m → m.count < m.nbuckets → ∀ e : α,
      (hashmap_set cfg true m e).1 = none →
      (m.nbuckets * 3 / 4 < m.count + 1 →
        (hashmap_set cfg true m e).2.nbuckets = m.nbuckets * 2) ∧
      (¬ m.nbuckets * 3 / 4 < m.count + 1 →
        (hashmap_set cfg true m e).2.nbuckets = m.nbuckets)) := by
  constructor
  · exact ⟨by decide, by decide, by decide, by decide⟩
  · intro α cfg hL m hm hroom e hfresh
    obtain ⟨-, hKI, htrigT, -, htrigF⟩ :=
      (hashmap_set_spec hL hm hroom true e).2.2.2.1 hfresh
    exact ⟨fun ht => (htrigT ⟨ht, rfl⟩).1, fun ht => (htrigF ht).1⟩

theorem C4_witness :
    ¬ (hashmap_new Nat 16).nbuckets * 3 / 4 < (hashmap_new Nat 16).count + 1 ∧
    (hashmap_set cfg0 true (hashmap_new Nat 16) 5).2.nbuckets = 16 := by
  have h := (C4_grow_amended.2 lawful_cfg0 (hashmap_new_WF cfg0 16)
    (by decide) 5 (by decide)).2 (by decide)
  exact ⟨by decide, h.trans (by decide)⟩

/-- C5: construction rounds the capacity hint up to the next power of two
with minimum 16 (stated with minimality), and on every reachable table the
bucket count stays a power of two of at least 16, occupancy never exceeds
it, and masking by capacity − 1 agrees with reduction modulo capacity. -/
theorem C5_capacity {α : Type} (cfg : HashCfg α) (hL : LawfulCfg cfg) :
    (∀ hint : Nat,
      (hashmap_new α hint).nbuckets = roundCap hint ∧
      (∃ k, (hashmap_new α hint).nbuckets = 2 ^ k) ∧
      16 ≤ (hashmap_new α hint).nbuckets ∧
      hint ≤ (hashmap_new α hint).nbuckets ∧
      (∀ c : Nat, (∃ j, c = 2 ^ j) → 16 ≤ c → hint ≤ c →
        (hashmap_new α hint).nbuckets ≤ c)) ∧
    (∀ m : Hashmap α, Reach cfg m →
      (∃ k, m.nbuckets = 2 ^ k) ∧ 16 ≤ m.nbuckets ∧ m.count ≤ m.nbuckets ∧
      (∀ h : Nat, h &&& (m.nbuckets - 1) = h % m.nbuckets)) := by
  constructor
  · intro hint
    obtain ⟨hpow, h16, hge, hmin⟩ := roundCap_spec hint
    exact ⟨rfl, hpow, h16, hge, hmin⟩
  · intro m hr
    have hm := Reach_WF hL hr
    have hcount : m.count ≤ m.nbuckets := by
      rw [hm.count_eq, ← hm.len_eq]
      exact List.length_filterMap_le _ _
    refine ⟨hm.pow2, hm.cap16, hcount, ?_⟩
    intro h
    obtain ⟨k, hk⟩ := hm.pow2
    rw [hk]
    exact Nat.and_pow_two_sub_one_eq_mod h k

theorem C5_witness :
    (hashmap_new Nat 5).nbuckets = 16 ∧
    7 &&& ((hashmap_new Nat 5).nbuckets - 1) = 7 % (hashmap_new Nat 5).nbuckets := by
  have h1 := (C5_capacity cfg0 lawful_cfg0).1 5
  have h2 := (C5_capacity cfg0 lawful_cfg0).2 (hashmap_new Nat 5) (Reach.new 5)
  exact ⟨h1.1.trans (by decide), h2.2.2.2 7⟩

/-- C6: on a well-formed table, hashmap_get (the forward walk from the
key's ideal position with robin-hood early termination) reports absent
exactly when no occupied bucket matches the key, and returns the stored
item of any occupied bucket that does match the key. -/
theorem C6_get_termination {α : Type} {cfg : HashCfg α} (hL : LawfulCfg cfg)
    {m : Hashmap α} (hm : WFm cfg m) (k : α) :
    (hashmap_get cfg m k = none ↔
      ∀ (p : Nat) (b : Entry α), m.buckets[p]? = some (some b) →
        (cfg.hash k == b.hash && cfg.keyEq k b.item) = false) ∧
    (∀ (p : Nat) (b : Entry α), m.buckets[p]? = some (some b) →
      (cfg.hash k == b.hash && cfg.keyEq k b.item) = true →
      hashmap_get cfg m k = some b.item) :=
  ⟨hashmap_get_none_iff hL hm k,
    fun _ _ hb hmatch => hashmap_get_finds hL hm hb hmatch⟩

theorem C6_witness :
    (hashmap_set cfg0 true (hashmap_new Nat 16) 5).2.buckets[5]?
      = some (some ⟨5, 0, 5⟩) ∧
    hashmap_get cfg0 (hashmap_set cfg0 true (hashmap_new Nat 16) 5).2 5 = some 5 :=
  ⟨by decide,
    (C6_get_termination lawful_cfg0
        (WFm_set lawful_cfg0 (hashmap_new_WF cfg0 16) (by decide) true 5) 5).2
      5 ⟨5, 0, 5⟩ (by decide) (by decide)⟩

/-- C7: inserting e and then an element e2 with the same key makes the
second set return the previous element e, leave the count unchanged, and
overwrite the occupied slot in place, preserving that slot's stored probe
distance. -/
theorem C7_replace {α : Type} {cfg : HashCfg α} (hL : LawfulCfg cfg)
    {m : Hashmap α} (hm : WFm cfg m) (hroom : m.count < m.nbuckets)
    (allocOk allocOk2 : Bool) (e e2 : α)
    (hkey : (cfg.hash e2 == cfg.hash e && cfg.keyEq e2 e) = true) :
    (hashmap_set cfg allocOk2 (hashmap_set cfg allocOk m e).2 e2).1 = some e ∧
    (hashmap_set cfg allocOk2 (hashmap_set cfg allocOk m e).2 e2).2.count
      = (hashmap_set cfg allocOk m e).2.count ∧
    ∃ (q : Nat) (b : Entry α),
      (hashmap_set cfg allocOk m e).2.buckets[q]? = some (some b) ∧ b.item = e ∧
      (hashmap_set cfg allocOk2 (hashmap_set cfg allocOk m e).2 e2).2.buckets
        = (hashmap_set cfg allocOk m e).2.buckets.set q
            (some ⟨b.hash, b.dib, e2⟩) := by
  obtain ⟨hWF1, -, ⟨q, b, hb, hitem, hhash⟩, -, -⟩ :=
    hashmap_set_spec hL hm hroom allocOk e
  have hmatch : ((⟨cfg.hash e2, 0, e2⟩ : Entry α).hash == b.hash
      && cfg.keyEq (⟨cfg.hash e2, 0, e2⟩ : Entry α).item b.item) = true := by
    show (cfg.hash e2 == b.hash && cfg.keyEq e2 b.item) = true
    rw [hhash, hitem]
    exact hkey
  have hdib : b.dib < (hashmap_set cfg allocOk m e).2.buckets.length :=
    (hWF1.wfb.ok q b hb).1
  have hpos : cfg.hash e2 % (hashmap_set cfg allocOk m e).2.nbuckets
      = ((⟨cfg.hash e2, 0, e2⟩ : Entry α).hash + (⟨cfg.hash e2, 0, e2⟩ : Entry α).dib)
        % (hashmap_set cfg allocOk m e).2.buckets.length := by
    show cfg.hash e2 % (hashmap_set cfg allocOk m e).2.nbuckets
      = (cfg.hash e2 + 0) % (hashmap_set cfg allocOk m e).2.buckets.length
    rw [Nat.add_zero, hWF1.len_eq]
  have hplace := place_replace hL (hashmap_set cfg allocOk m e).2.nbuckets
    (cfg.hash e2 % (hashmap_set cfg allocOk m e).2.nbuckets)
    (⟨cfg.hash e2, 0, e2⟩ : Entry α) (hashmap_set cfg allocOk m e).2.buckets
    q b hb hmatch (Nat.zero_le _) (by rw [hWF1.len_eq] at hdib; omega) hpos
    hWF1.wfb.ok hWF1.wfb.i4 hWF1.wfb.i5
  have hset : hashmap_set cfg allocOk2 (hashmap_set cfg allocOk m e).2 e2
      = setFinish cfg allocOk2 (hashmap_set cfg allocOk m e).2
          (place cfg (hashmap_set cfg allocOk m e).2.nbuckets
            (cfg.hash e2 % (hashmap_set cfg allocOk m e).2.nbuckets)
            (⟨cfg.hash e2, 0, e2⟩ : Entry α)
            (hashmap_set cfg allocOk m e).2.buckets) := rfl
  rw [hset, hplace, setFinish_replace]
  exact ⟨by rw [hitem], rfl, q, b, hb, hitem, rfl⟩

theorem C7_witness :
    (hashmap_set cfg0 true (hashmap_set cfg0 true (hashmap_new Nat 16) 5).2 5).1
      = some 5 ∧
    (hashmap_set cfg0 true (hashmap_set cfg0 true (hashmap_new Nat 16) 5).2 5).2.count
      = 1 := by
  have h := C7_replace lawful_cfg0 (hashmap_new_WF cfg0 16) (by decide)
    true true 5 5 (by decide)
  exact ⟨h.1, h.2.1.trans (by decide)⟩

/-- C8: when a fresh insert pushes occupancy over the 3/4 threshold and
the grow's allocation fails, the bucket count stays unchanged, the insert
itself still succeeds (the new element and every previously stored element
remain retrievable by get), and the out-of-memory flag reported by
hashmap_oom is set; moreover the flag is sticky: once a table's flag is
set, no set, delete or clear operation clears it. -/
theorem C8_oom_grow {α : Type} {cfg : HashCfg α} (hL : LawfulCfg cfg)
    {m : Hashmap α} (hm : WFm cfg m) (hroom : m.count < m.nbuckets) (e : α)
    (hfresh : (hashmap_set cfg false m e).1 = none)
    (htrig : m.nbuckets * 3 / 4 < m.count + 1) :
    (hashmap_set cfg false m e).2.nbuckets = m.nbuckets ∧
    hashmap_oom (hashmap_set cfg false m e).2 = true ∧
    hashmap_get cfg (hashmap_set cfg false m e).2 e = some e ∧
    (∀ (h0 : Nat) (x : α), (h0, x) ∈ entriesKI m.buckets →
      hashmap_get cfg (hashmap_set cfg false m e).2 x = some x) ∧
    (∀ m2 : Hashmap α, m2.oom = true →
      (∀ (allocOk2 : Bool) (e2 : α),
        (hashmap_set cfg allocOk2 m2 e2).2.oom = true) ∧
      (∀ k : α, (hashmap_delete cfg m2 k).2.oom = true) ∧
      (∀ allocOk2 update_cap : Bool,
        (hashmap_clear allocOk2 m2 update_cap).1.oom = true)) := by
  obtain ⟨hWF, -, -, hins, -⟩ := hashmap_set_spec hL hm hroom false e
  obtain ⟨-, hKI, -, hfail, -⟩ := hins hfresh
  obtain ⟨hnb, hoom⟩ := hfail ⟨htrig, rfl⟩
  refine ⟨hnb, hoom, ?_, ?_, ?_⟩
  · have hmem : (cfg.hash e, e) ∈ entriesKI (hashmap_set cfg false m e).2.buckets := by
      rw [hKI]
      exact Multiset.mem_cons_self _ _
    exact get_of_KI_mem hL hWF hmem rfl
  · intro h0 x hmem0
    have hmem : (h0, x) ∈ entriesKI (hashmap_set cfg false m e).2.buckets := by
      rw [hKI]
      exact Multiset.mem_cons_of_mem hmem0
    obtain ⟨q0, b0, hb0, hit0, hh0⟩ := presence_of_KI hmem0
    have hh1 : h0 = cfg.hash x := by
      have h6 := hm.wfb.i6 q0 b0 hb0
      rw [← hh0, h6, hit0]
    exact get_of_KI_mem hL hWF hmem hh1
  · intro m2 hm2
    exact ⟨fun allocOk2 e2 => hashmap_set_oom cfg allocOk2 m2 e2 hm2,
      fun k => hashmap_delete_oom cfg m2 k hm2,
      fun allocOk2 update_cap => hashmap_clear_oom allocOk2 update_cap m2 hm2⟩

theorem C8_witness :
    (hashmap_set cfg0 false (insertAll (List.range 12) (hashmap_new Nat 16)) 12).1
      = none ∧
    (insertAll (List.range 12) (hashmap_new Nat 16)).nbuckets * 3 / 4
      < (insertAll (List.range 12) (hashmap_new Nat 16)).count + 1 ∧
    (hashmap_set cfg0 false (insertAll (List.range 12) (hashmap_new Nat 16)) 12).2.nbuckets
      = 16 ∧
    hashmap_oom
      (hashmap_set cfg0 false (insertAll (List.range 12) (hashmap_new Nat 16)) 12).2
      = true ∧
    hashmap_get cfg0
      (hashmap_set cfg0 false (insertAll (List.range 12) (hashmap_new Nat 16)) 12).2 12
      = some 12 := by
  have hWF : WFm cfg0 (insertAll (List.range 12) (hashmap_new Nat 16)) :=
    Reach_WF lawful_cfg0
      (Reach_insertAll (List.range 12) (hashmap_new Nat 16) (Reach.new 16) (by decide))
  have h := C8_oom_grow lawful_cfg0 hWF (by decide) 12 (by decide) (by decide)
  exact ⟨by decide, by decide, h.1.trans (by decide), h.2.1, h.2.2.1⟩

/-- C9 counterexample: clearing with the capacity-update flag does not
resize the backing array to the stored capacity hint.  After 13 inserts
into a hint-16 table the array has 32 buckets while the stored capacity
value is 16; clear with update_cap keeps the 32 buckets and instead
overwrites the stored capacity value with 32. -/
theorem C9_counterexample :
    (insertAll (List.range 13) (hashmap_new Nat 16)).capHint = 16 ∧
    (insertAll (List.range 13) (hashmap_new Nat 16)).nbuckets = 32 ∧
    (hashmap_clear true (insertAll (List.range 13) (hashmap_new Nat 16)) true).1.nbuckets
      = 32 ∧
    ¬ (hashmap_clear true (insertAll (List.range 13) (hashmap_new Nat 16)) true).1.nbuckets
      = 16 ∧
    (hashmap_clear true (insertAll (List.range 13) (hashmap_new Nat 16)) true).1.capHint
      = 32 := by
  decide

/-- C9 (amended): clear hands every occupied element (each exactly once,
in bucket order) to the destructor, marks every bucket empty and resets
the count to zero; with the capacity-update flag set it performs no
resizing at all — the bucket count stays unchanged, the stored capacity
value is overwritten with the current bucket count, the out-of-memory
flag is untouched, and the result does not depend on the allocator (no
allocation is performed). -/
theorem C9_clear_amended {α : Type} {cfg : HashCfg α} {m : Hashmap α}
    (hm : WFm cfg m) (allocOk update_cap : Bool) :
    (hashmap_clear allocOk m update_cap).2
      = (entriesL m.buckets).map (fun b => b.item) ∧
    (hashmap_clear allocOk m update_cap).1.count = 0 ∧
    (∀ p : Nat, p < (hashmap_clear allocOk m update_cap).1.buckets.length →
      (hashmap_clear allocOk m update_cap).1.buckets[p]? = some none) ∧
    (update_cap = true →
      (hashmap_clear allocOk m update_cap).1.nbuckets = m.nbuckets ∧
      (hashmap_clear allocOk m update_cap).1.capHint = m.nbuckets ∧
      (hashmap_clear allocOk m update_cap).1.oom = m.oom ∧
      ∀ allocOk2 : Bool,
        hashmap_clear allocOk2 m update_cap = hashmap_clear allocOk m update_cap) := by
  obtain ⟨-, hcount, hdest, hempty, -, hupd⟩ := hashmap_clear_spec hm allocOk update_cap
  refine ⟨hdest, hcount, hempty, ?_⟩
  intro ht
  obtain ⟨hnb, -, hcap, hoom, hind⟩ := hupd ht
  exact ⟨hnb, hcap, hoom, hind⟩

theorem C9_witness :
    (hashmap_clear true mGrown true).2 = [] ∧
    (hashmap_clear true mGrown true).1.count = 0 ∧
    (hashmap_clear true mGrown true).1.nbuckets = mGrown.nbuckets ∧
    (hashmap_clear true mGrown true).1.capHint = mGrown.nbuckets := by
  have h := C9_clear_amended WFm_mGrown true true
  obtain ⟨hnb, hcap, -, -⟩ := h.2.2.2 rfl
  exact ⟨h.1.trans (by decide), h.2.1, hnb, hcap⟩

/-- C10: hashmap_get, hashmap_probe, hashmap_count and hashmap_oom are
pure queries: the state-passing forms return exactly the query result
paired with the untouched table, so capacity, occupancy and all bucket
contents are unchanged. -/
theorem C10_queries_pure {α : Type} (cfg : HashCfg α) (m : Hashmap α)
    (k : α) (position : Nat) :
    hashmap_getS cfg m k = (hashmap_get cfg m k, m) ∧
    hashmap_probeS m position = (hashmap_probe m position, m) ∧
    hashmap_countS m = (hashmap_count m, m) ∧
    hashmap_oomS m = (hashmap_oom m, m) ∧
    (hashmap_getS cfg m k).2.nbuckets = m.nbuckets ∧
    (hashmap_getS cfg m k).2.count = m.count ∧
    (hashmap_getS cfg m k).2.buckets = m.buckets ∧
    (hashmap_probeS m position).2.buckets = m.buckets ∧
    (hashmap_countS m).2.buckets = m.buckets ∧
    (hashmap_oomS m).2.buckets = m.buckets :=
  ⟨rfl, rfl, rfl, rfl, rfl, rfl, rfl, rfl, rfl, rfl⟩

theorem C2_witness :
    (hashmap_set cfg0 true (hashmap_new Nat 16) 5).2.buckets[5]?
      = some (some ⟨5, 0, 5⟩) ∧
    (⟨5, 0, 5⟩ : Entry Nat).dib
      = (5 + (hashmap_set cfg0 true (hashmap_new Nat 16) 5).2.nbuckets
          - ((⟨5, 0, 5⟩ : Entry Nat).hash
              &&& ((hashmap_set cfg0 true (hashmap_new Nat 16) 5).2.nbuckets - 1)))
        % (hashmap_set cfg0 true (hashmap_new Nat 16) 5).2.nbuckets :=
  ⟨by decide,
    C2_dib_invariant lawful_cfg0 (Reach.set true 5 (Reach.new 16) (by decide))
      (by decide)⟩

end HashmapModel
